import Mathlib

/-!
Verification of the layered key-value session (`b1/session/session.hpp`)

Shallow embedding of `eosio::session::session<Parent>` from
`src/libraries/chain_kv/include/b1/session/session.hpp`, instantiated with a
leaf data store as the parent.  Keys and values (`shared_bytes`) are byte
strings; the distinguished `invalid` sentinel is modelled by `Option.none`.

The repository does not ship `shared_bytes.hpp` or `cache.hpp` under `src/`;
those two collaborators are modelled from the spec (sections 1, 3, 6): an
immutable byte string with total lexicographic order plus an `invalid`
sentinel, and an ordered key/value map with `read/write/erase/find/
iteration in key order/clear/write_to`.  Everything in the `Session`
namespace is translated from the source of `session.hpp`.
-/

namespace SessionModel

/-- A byte string (`shared_bytes` payload). Modelled from the spec:
opaque immutable byte string with total lexicographic ordering. -/
abbrev Bytes := List Nat

/-- Model of `shared_bytes` including the distinguished `invalid` sentinel:
`none` is `shared_bytes::invalid`, `some b` a valid byte string. -/
abbrev SB := Option Bytes

/-- Lexicographic strict order on byte strings. Modelled from the spec:
"total lexicographic ordering" on keys (shared_bytes contract). -/
def bytesLt : Bytes → Bytes → Bool
  | [], [] => false
  | [], _ :: _ => true
  | _ :: _, [] => false
  | a :: as, b :: bs => if a < b then true else if b < a then false else bytesLt as bs

/-- The per-source and logical stores.  Modelled from the spec: both the leaf
data store and the session's `write_cache` expose `read/write/erase/find`,
ordered iteration, `clear` and `write_to` over key/value byte strings
(spec section 6).  Represented as a key-sorted association list. -/
abbrev Store := List (Bytes × Bytes)

/-- Keys of a store, in iteration order. -/
def keysOf (st : Store) : List Bytes := st.map Prod.fst

/-- Point lookup (`read`/`find`): value stored for `key`, or `invalid`. -/
def Store.read : Store → Bytes → SB
  | [], _ => none
  | (k', v') :: rest, k => if k = k' then some v' else Store.read rest k

/-- Insert-or-assign (`write`), keeping keys sorted. -/
def Store.write : Store → Bytes → Bytes → Store
  | [], k, v => [(k, v)]
  | (k', v') :: rest, k, v =>
    if bytesLt k k' then (k, v) :: (k', v') :: rest
    else if k = k' then (k, v) :: rest
    else (k', v') :: Store.write rest k v

/-- Remove a key (`erase`). -/
def Store.eraseKey : Store → Bytes → Store
  | [], _ => []
  | (k', v') :: rest, k => if k = k' then rest else (k', v') :: Store.eraseKey rest k

/-- Batch erase of a set of keys (`erase(set_of_keys)`). -/
def Store.eraseKeys (st : Store) (keys : List Bytes) : Store :=
  keys.foldl (fun d k => Store.eraseKey d k) st

/-- Model of `write_to(other, set_of_keys)`.  Modelled from the spec: "copies the
selected entries to another store" (write-cache contract, section 6). -/
def Store.write_to (cache : Store) (ds : Store) (keys : List Bytes) : Store :=
  keys.foldl
    (fun d k =>
      match Store.read cache k with
      | some v => Store.write d k v
      | none => d)
    ds

/-- Index of the first entry whose key is `≥ k` (`lower_bound`). -/
def lbIdx (st : Store) (k : Bytes) : Nat :=
  match st with
  | [] => 0
  | (k', _) :: rest => if bytesLt k' k then 1 + lbIdx rest k else 0

/-- Index of the first entry whose key is `> k` (`upper_bound`). -/
def ubIdx (st : Store) (k : Bytes) : Nat :=
  match st with
  | [] => 0
  | (k', _) :: rest => if bytesLt k k' then 0 else 1 + ubIdx rest k

/-- Model of `session::iterator_state` (session.hpp:28-32): per-key traversal hints
held in the iterator cache.  All fields default to `false`. -/
structure IterState where
  next_in_cache : Bool := false
  previous_in_cache : Bool := false
  deleted : Bool := false
deriving DecidableEq, Repr

instance : Inhabited IterState := ⟨{}⟩

/-- Model of `session::iterator_cache_type = std::map<shared_bytes, iterator_state>`:
a key-sorted association list. -/
abbrev ICache := List (Bytes × IterState)

/-- Model of `m_iterator_cache.find(key)`. -/
def icacheFind : ICache → Bytes → Option IterState
  | [], _ => none
  | (k', st) :: rest, k => if k = k' then some st else icacheFind rest k

/-- Model of `m_iterator_cache.try_emplace(key, iterator_state{})`: insert a
default-initialized state if the key is absent, keep the old entry otherwise. -/
def icacheEmplace : ICache → Bytes → ICache
  | [], k => [(k, {})]
  | (k', st) :: rest, k =>
    if bytesLt k k' then (k, {}) :: (k', st) :: rest
    else if k = k' then (k', st) :: rest
    else (k', st) :: icacheEmplace rest k

/-- Mutate the `iterator_state` stored for `key` (no-op when absent). -/
def icacheModify (ic : ICache) (k : Bytes) (f : IterState → IterState) : ICache :=
  ic.map fun kv => if kv.1 = k then (kv.1, f kv.2) else kv

/-- Model of `++it` on the iterator cache map: the smallest cache key greater than
the current one, or the end sentinel (`none`). -/
def icacheNextKey : ICache → Bytes → Option Bytes
  | [], _ => none
  | (k', _) :: rest, k => if bytesLt k k' then some k' else icacheNextKey rest k

/-- Model of `std::begin(m_iterator_cache)`: first key, or `none` when the map is
empty (begin = end). -/
def icacheBeginKey (ic : ICache) : Option Bytes :=
  (ic.head?).map Prod.fst

/-- Model of `session<Parent>`'s mutable state (session.hpp:181-198), with the parent
instantiated by a leaf data store (`m_parent` is `none` when detached). -/
structure Session where
  m_parent : Option Store := none
  m_cache : Store := []
  m_iterator_cache : ICache := []
  m_updated_keys : List Bytes := []
  m_deleted_keys : List Bytes := []
deriving DecidableEq, Repr

instance : Inhabited Session := ⟨{}⟩

/-- Model of `make_session()` (session.hpp:200-204): a default, detached session. -/
def make_session : Session := {}

/-- Model of `std::unordered_set::emplace`: add a key to a key set. -/
def setInsert (k : Bytes) (l : List Bytes) : List Bytes :=
  if k ∈ l then l else k :: l

/-- Model of `std::unordered_set::erase`: remove a key from a key set. -/
def setErase (k : Bytes) (l : List Bytes) : List Bytes :=
  l.filter (fun x => x ≠ k)

/-- Model of `session::is_deleted` (session.hpp:503-515).  The parent is a leaf
store; per the spec's parent contract "leaf stores may always return false"
for `is_deleted`, so the recursive call into the parent yields `false`. -/
def Session.is_deleted (s : Session) (key : Bytes) : Bool :=
  if key ∈ s.m_deleted_keys then true
  else if key ∈ s.m_updated_keys then false
  else
    match s.m_parent with
    | some _ => false
    | none => false

/-- Model of `session::clear` (session.hpp:241-247): empty the four local
structures; the parent pointer is untouched. -/
def Session.clear (s : Session) : Session :=
  { s with
    m_deleted_keys := []
    m_updated_keys := []
    m_cache := []
    m_iterator_cache := [] }

/-- The parameter block of `update_iterator_cache_` (session.hpp:173-178). -/
structure IterCacheParams where
  prime_only : Bool := false
  recalculate : Bool := false
  mark_deleted : Bool := false
  overwrite : Bool := true

/-- The move functor handed to `make_iterator_`: either `++it`
(begin / lower_bound / upper_bound / bounds_) or `it = end` (find / end). -/
inductive MoveKind where
  | next
  | toEnd
deriving DecidableEq

/-- Inner loop of `find_first_not` inside `make_iterator_`
(session.hpp:538-559): starting from the entry holding `pending`, return the
first key that is not `is_deleted`, advancing with the move functor; give up
with `invalid` at the end of the source or when the scan stops ascending
(`!std::greater(pending_key, beginning_key)`, the wrap-around check). -/
def ffnGo (s : Session) (beginning : Bytes) (pending : Bytes)
    (rest : List (Bytes × Bytes)) (mv : MoveKind) : SB :=
  if ¬ s.is_deleted pending then some pending
  else
    match mv with
    | .toEnd => none
    | .next =>
      match rest with
      | [] => none
      | (k, _) :: rs => if bytesLt beginning k then ffnGo s beginning k rs .next else none

/-- Model of `find_first_not` (session.hpp:538-559) applied to the suffix of a data
source starting at the positioning predicate's iterator. -/
def findFirstNot (s : Session) (entries : List (Bytes × Bytes)) (mv : MoveKind) : SB :=
  match entries with
  | [] => none
  | (k, _) :: rest => ffnGo s k k rest mv

/-- Model of `try_emplace(key, iterator_state{})` on a session (session.hpp:304). -/
def emplaceKey (key : Bytes) (s : Session) : Session :=
  { s with m_iterator_cache := icacheEmplace s.m_iterator_cache key }

/-- Model of `it->second.deleted = params.mark_deleted` (session.hpp:313-316). -/
def overwriteStep (key : Bytes) (p : IterCacheParams) (s : Session) : Session :=
  if p.overwrite then
    { s with m_iterator_cache :=
        icacheModify s.m_iterator_cache key (fun st => { st with deleted := p.mark_deleted }) }
  else s

/-- The lower-bound half of the pairwise flag assignment
(session.hpp:328-332): insert the predecessor candidate, mark its
`next_in_cache`, and mark the current key's `previous_in_cache`. -/
def applyLower (key : Bytes) (s : Session) : SB → Session
  | some l =>
    { s with m_iterator_cache :=
        (icacheModify (icacheModify (icacheEmplace s.m_iterator_cache l) l
          (fun st => { st with next_in_cache := true })) key
          (fun st => { st with previous_in_cache := true })) }
  | none => s

/-- The upper-bound half of the pairwise flag assignment
(session.hpp:334-338). -/
def applyUpper (key : Bytes) (s : Session) : SB → Session
  | some u =>
    { s with m_iterator_cache :=
        (icacheModify (icacheModify (icacheEmplace s.m_iterator_cache u) u
          (fun st => { st with previous_in_cache := true })) key
          (fun st => { st with next_in_cache := true })) }
  | none => s

/-- The recalculation tail of `update_iterator_cache_`
(session.hpp:318-338): stop if the neighbor hints are already confirmed and
no recalculation was forced; otherwise run the bounds computation and apply
the pairwise flag assignments. -/
def recalcStep (boundsFn : Session → Bytes → Session × SB × SB) (key : Bytes)
    (p : IterCacheParams) (s : Session) : Session :=
  if ¬ p.recalculate ∧ ((icacheFind s.m_iterator_cache key).getD {}).next_in_cache
      ∧ ((icacheFind s.m_iterator_cache key).getD {}).previous_in_cache then s
  else
    match boundsFn s key with
    | (s3, lowerB, upperB) => applyUpper key (applyLower key s3 lowerB) upperB

/-- Core of `update_iterator_cache_` (session.hpp:302-339), with the bounds
computation passed in as `boundsFn` (it is dead code when `prime_only` is
set, which is how the source avoids re-entry while `bounds_` runs). -/
def update_iterator_cache_core (boundsFn : Session → Bytes → Session × SB × SB)
    (s : Session) (key : Bytes) (p : IterCacheParams) : Session :=
  if p.prime_only then emplaceKey key s
  else recalcStep boundsFn key p (overwriteStep key p (emplaceKey key s))

/-- Model of `update_iterator_cache_` with `prime_only = true`: only the
`try_emplace` runs, so the bounds function is never consulted. -/
def updatePrimeOnly (s : Session) (key : Bytes) (p : IterCacheParams) : Session :=
  update_iterator_cache_core (fun s _ => (s, none, none)) s key p

/-- Model of `ltSB`: `std::less<shared_bytes>` as used by `make_iterator_`'s
comparator.  Modelled from the spec for the `invalid` operand: the factory
"prefers the non-invalid if only one is valid" (section 4.5), so an invalid
left operand is never preferred. -/
def ltSB : SB → SB → Bool
  | some a, some b => bytesLt a b
  | _, _ => false

/-- Model of `gtSB`: `std::greater<shared_bytes>` (used by the `end` factory), with
the same treatment of `invalid`. -/
def gtSB : SB → SB → Bool
  | some a, some b => bytesLt b a
  | _, _ => false

/-- The candidate key selected by `make_iterator_` (session.hpp:561-575):
the surviving key of the parent scan (`current_key`) unless it is invalid
or the comparator prefers the local cache's surviving key (`pending_key`). -/
def chosenKey (s : Session) (predIdx : Store → Nat) (cmp : SB → SB → Bool)
    (mv : MoveKind) : SB :=
  let currentKey :=
    match s.m_parent with
    | some p => findFirstNot s (p.drop (predIdx p)) mv
    | none => none
  let pendingKey := findFirstNot s (s.m_cache.drop (predIdx s.m_cache)) mv
  if currentKey = none ∨ cmp pendingKey currentKey then pendingKey else currentKey

/-- Position the new iterator at the chosen key's iterator-cache entry
(session.hpp:584-588), degrading to the end sentinel when that entry is
flagged deleted (the `find` cannot miss: the key was just emplaced). -/
def makeIterPos (ck : Bytes) (s' : Session) : Session × Option Bytes :=
  match icacheFind s'.m_iterator_cache ck with
  | some st => if st.deleted then (s', none) else (s', some ck)
  | none => (s', none)

/-- The tail of `make_iterator_` (session.hpp:577-591): on a valid chosen
key, update the iterator cache for it and position the iterator there. -/
def makeIterFinish (upd : Session → Bytes → IterCacheParams → Session) (primeOnly : Bool)
    (s : Session) : SB → Session × Option Bytes
  | none => (s, none)
  | some ck =>
    makeIterPos ck (upd s ck { prime_only := primeOnly, recalculate := true,
                               mark_deleted := false, overwrite := false })

/-- Model of `make_iterator_` (session.hpp:522-592) with the iterator-cache update
function passed in (`upd`), the positioning predicate given as a start index
into a source, and the comparator/move functors.  Returns the mutated
session and the key the returned iterator points at (`none` = the iterator
cache's end sentinel). -/
def makeIterAux (upd : Session → Bytes → IterCacheParams → Session) (primeOnly : Bool)
    (s : Session) (predIdx : Store → Nat) (cmp : SB → SB → Bool) (mv : MoveKind) :
    Session × Option Bytes :=
  makeIterFinish upd primeOnly s (chosenKey s predIdx cmp mv)

/-- The positioning predicate of the `lower` lambda inside `bounds_`
(session.hpp:277-283): step back from `lower_bound(key)` unless that sits at
`begin` or `end` of the source. -/
def lowerPredIdx (st : Store) (k : Bytes) : Nat :=
  let i := lbIdx st k
  if i ≠ 0 ∧ i ≠ st.length then i - 1 else st.length

/-- Model of `bounds_` (session.hpp:269-300): compute candidate predecessor/successor
keys for `key` using three prime-only iterators.  Returns the mutated
session (the prime-only factories may insert keys into the iterator cache)
and the pair `(lower_bound_key, upper_bound_key)`. -/
def Session.bounds_ (s : Session) (key : Bytes) : Session × SB × SB :=
  let lower := makeIterAux updatePrimeOnly true s (fun ds => lowerPredIdx ds key) ltSB .next
  let upper := makeIterAux updatePrimeOnly true lower.1 (fun ds => ubIdx ds key) ltSB .next
  let endIt := makeIterAux updatePrimeOnly true upper.1 (fun ds => ds.length) gtSB .toEnd
  (endIt.1, lower.2, upper.2)

/-- Model of `update_iterator_cache_` (session.hpp:302-339). -/
def Session.update_iterator_cache_ (s : Session) (key : Bytes) (p : IterCacheParams) : Session :=
  update_iterator_cache_core Session.bounds_ s key p

/-- Model of `make_iterator_` with the `prime_cache_only` flag as the last argument
(session.hpp:522-592). -/
def Session.make_iterator_ (s : Session) (predIdx : Store → Nat) (cmp : SB → SB → Bool)
    (mv : MoveKind) (primeOnly : Bool) : Session × Option Bytes :=
  makeIterAux Session.update_iterator_cache_ primeOnly s predIdx cmp mv

/-- Model of `session::read` (session.hpp:372-398): the logical value for `key`
together with the session after the call (`read` is `const` in the source
but materializes parent hits into the mutable local caches). -/
def Session.read (s : Session) (key : Bytes) : SB × Session :=
  if key ∈ s.m_deleted_keys then (none, s)
  else
    match Store.read s.m_cache key with
    | some v => (some v, s)
    | none =>
      let value :=
        match s.m_parent with
        | some p => Store.read p key
        | none => none
      match value with
      | some v =>
        let s1 := { s with m_cache := Store.write s.m_cache key v }
        let s2 := s1.update_iterator_cache_ key
          { prime_only := false, recalculate := true, mark_deleted := false, overwrite := false }
        (some v, s2)
      | none => (none, s)

/-- Model of `session::write` (session.hpp:400-406). -/
def Session.write (s : Session) (key value : Bytes) : Session :=
  let s1 := { s with
    m_updated_keys := setInsert key s.m_updated_keys
    m_deleted_keys := setErase key s.m_deleted_keys
    m_cache := Store.write s.m_cache key value }
  s1.update_iterator_cache_ key
    { prime_only := false, recalculate := true, mark_deleted := false, overwrite := true }

/-- Model of `session::erase` (session.hpp:430-436). -/
def Session.erase (s : Session) (key : Bytes) : Session :=
  let s1 := { s with
    m_deleted_keys := setInsert key s.m_deleted_keys
    m_updated_keys := setErase key s.m_updated_keys
    m_cache := Store.eraseKey s.m_cache key }
  s1.update_iterator_cache_ key
    { prime_only := false, recalculate := true, mark_deleted := true, overwrite := true }

/-- Model of `session::contains` (session.hpp:408-428).  The leaf parent's
`contains` is modelled from the spec's parent contract: the key is present
exactly when the store holds a value for it. -/
def Session.contains (s : Session) (key : Bytes) : Bool × Session :=
  if key ∈ s.m_deleted_keys then (false, s)
  else if (Store.read s.m_cache key).isSome then (true, s)
  else
    match s.m_parent with
    | some p =>
      if (Store.read p key).isSome then
        (true,
         s.update_iterator_cache_ key
           { prime_only := false, recalculate := true, mark_deleted := false, overwrite := false })
      else (false, s)
    | none => (false, s)

/-- Model of `prime_cache_` (session.hpp:212-239): clear the iterator cache, drop
cached values that are not in `m_updated_keys`, then seed the iterator
cache with the parent's first and last keys.  The source reads the last key
via `--end_it`; on an empty parent that decrement lands back on `end` (the
`--end_it != end` guard fails), so nothing is inserted. -/
def Session.prime_cache_ (s : Session) : Session :=
  let s1 := { s with m_iterator_cache := [] }
  let s2 := { s1 with m_cache := s1.m_cache.filter (fun kv => kv.1 ∈ s1.m_updated_keys) }
  match s2.m_parent with
  | none => s2
  | some p =>
    let ic :=
      match p.head? with
      | some kv => icacheEmplace s2.m_iterator_cache kv.1
      | none => s2.m_iterator_cache
    let ic :=
      match p.getLast? with
      | some kv => icacheEmplace ic kv.1
      | none => ic
    { s2 with m_iterator_cache := ic }

/-- Model of `session::attach` (session.hpp:341-345). -/
def Session.attach (s : Session) (parent : Store) : Session :=
  Session.prime_cache_ { s with m_parent := some parent }

/-- Model of `session::detach` (session.hpp:347-350). -/
def Session.detach (s : Session) : Session :=
  { s with m_parent := none }

/-- Model of `session::undo` (session.hpp:263-267): detach, then clear. -/
def Session.undo (s : Session) : Session :=
  s.detach.clear

/-- Model of `session::commit` (session.hpp:352-370): no-op when detached or when
both key sets are empty; otherwise erase `m_deleted_keys` from the parent,
write the cached values of `m_updated_keys` through, and clear. -/
def Session.commit (s : Session) : Session :=
  match s.m_parent with
  | none => s
  | some p =>
    if s.m_updated_keys = [] ∧ s.m_deleted_keys = [] then s
    else
      let p1 := Store.eraseKeys p s.m_deleted_keys
      let p2 := Store.write_to s.m_cache p1 s.m_updated_keys
      Session.clear { s with m_parent := some p2 }

/-- Model of `session::begin` (session.hpp:632-642): position at the start of every
source, choose with `std::less`, move with `++it`. -/
def Session.beginIter (s : Session) : Session × Option Bytes :=
  s.make_iterator_ (fun _ => 0) ltSB .next false

/-- Model of `session::end` (session.hpp:644-654): position at the end of every
source, choose with `std::greater`, move with `it = end`. -/
def Session.endIter (s : Session) : Session × Option Bytes :=
  s.make_iterator_ (fun ds => ds.length) gtSB .toEnd false

/-- The body of `session_iterator::move_` for the forward direction
(session.hpp:684-724): the do-loop walks the iterator cache by `++`,
skipping entries whose `deleted` flag is set, recomputing the
`next_in_cache` hint on demand, and stops at the cache's end sentinel when
the hint cannot be established.  `fuel` bounds the loop (the concrete
executions below never exhaust it); an iterator already at the end sentinel
stays there (the source's test would read the map's header node). -/
def moveNextGo (s : Session) (pos : Option Bytes) : Nat → Session × Option Bytes
  | 0 => (s, pos)
  | fuel + 1 =>
    match pos with
    | none => (s, none)
    | some k =>
      let st := (icacheFind s.m_iterator_cache k).getD {}
      let step :=
        if st.next_in_cache then (s, true)
        else
          let s' := s.update_iterator_cache_ k
            { prime_only := false, recalculate := true, mark_deleted := false, overwrite := false }
          let st' := (icacheFind s'.m_iterator_cache k).getD {}
          (s', st'.next_in_cache)
      let s1 := step.1
      if ¬ step.2 then (s1, none)
      else
        match icacheNextKey s1.m_iterator_cache k with
        | none => (s1, none)
        | some k' =>
          let st' := (icacheFind s1.m_iterator_cache k').getD {}
          if ¬ st'.deleted then (s1, some k')
          else moveNextGo s1 (some k') fuel

/-- Fuel bound for the traversal loop: more than the number of keys any
update can ever place into the iterator cache. -/
def Session.moveFuel (s : Session) : Nat :=
  s.m_iterator_cache.length + (s.m_parent.getD []).length + s.m_cache.length + 2

/-- Model of `session_iterator::move_next_` (session.hpp:710-724): run the forward
`move_` loop, then roll over from the cache's end sentinel to its begin. -/
def Session.move_next_ (s : Session) (pos : Option Bytes) : Session × Option Bytes :=
  let r := moveNextGo s pos (s.moveFuel)
  match r.2 with
  | none => (r.1, icacheBeginKey r.1.m_iterator_cache)
  | some k => (r.1, some k)

/-- Model of `session_iterator::operator==` (session.hpp:812-823) on two iterators
over the same session, each identified by its iterator-cache position
(`none` = the end sentinel).  The source's third line dereferences
`this->m_active_iterator`; when `this` is at the end sentinel that
dereferences the map's end iterator, which has no defined result — modelled
as `Option.none` (`some` results are the defined comparisons). -/
def iterEq (a b : Option Bytes) : Option Bool :=
  if a = none ∧ b = none then some true
  else if b = none then some false
  else
    match a, b with
    | some ka, some kb => some (decide (ka = kb))
    | some _, none => some false
    | none, _ => none

/-- The positions produced by starting at `pos` and applying
`move_next_` (`operator++`) `n` times, the starting position included. -/
def iterPositions : Nat → Session × Option Bytes → List (Option Bytes)
  | 0, sp => [sp.2]
  | n + 1, sp => sp.2 :: iterPositions n (sp.1.move_next_ sp.2)

/-- Membership in the logical view of a session (spec, Glossary): the
parent's keys unioned with the write cache's keys, minus this layer's
tombstones. -/
def InLogicalView (s : Session) (x : Bytes) : Prop :=
  (x ∈ keysOf (s.m_parent.getD []) ∨ x ∈ keysOf s.m_cache) ∧ x ∉ s.m_deleted_keys

instance (s : Session) (x : Bytes) : Decidable (InLogicalView s x) := by
  unfold InLogicalView
  infer_instance

/-! ## Frame lemmas

`update_iterator_cache_` and the iterator factories mutate only
`m_iterator_cache`; every other field of the session survives unchanged. -/

/-- Two sessions agree on everything but the iterator cache. -/
def SameCore (a b : Session) : Prop :=
  a.m_parent = b.m_parent ∧ a.m_cache = b.m_cache ∧
  a.m_updated_keys = b.m_updated_keys ∧ a.m_deleted_keys = b.m_deleted_keys

/-! ## Sorted stores -/

/-- A key list in strictly ascending lexicographic order. -/
def SortedKeys (l : List Bytes) : Prop :=
  List.Pairwise (fun a b => bytesLt a b = true) l

/-- A store whose keys are strictly ascending (the map invariant of both
the leaf store and the write cache). -/
def SortedStore (st : Store) : Prop := SortedKeys (keysOf st)

instance (l : List Bytes) : Decidable (SortedKeys l) := by
  unfold SortedKeys
  infer_instance

instance (st : Store) : Decidable (SortedStore st) := by
  unfold SortedStore
  infer_instance

/-- The leaf store of the C2 scenario: keys `[0]`, `[2]`, `[3]`. -/
def c2leaf : Store := [([0], [10]), ([2], [11]), ([3], [12])]

/-- The C2 scenario session: detached writes of `[1]` and `[4]`, then
`attach` to `c2leaf`, then a read-through of `[3]`.  All steps are public
session operations. -/
def c2session : Session :=
  ((((make_session.write [1] [9]).write [4] [9]).attach c2leaf).read [3]).2

/-- One application of `operator++` to a (session, position) pair. -/
def c2step (q : Session × Option Bytes) : Session × Option Bytes :=
  q.1.move_next_ q.2

/-- The C4 counterexample session: a fresh session attached to the
single-key leaf `{[0]}`. -/
def c4session : Session := make_session.attach [([0], [9])]

/-- The C8 scenario session: a fresh session attached to the single-key
leaf `{[0]}`; `begin()` points at `[0]` and `end()` is the end sentinel. -/
def c8session : Session := make_session.attach [([0], [9])]

/-! ## C3: the session invariants -/

/-- The three data-model invariants of spec section 3: the updated and
deleted key sets are disjoint, every updated key is cached, and no deleted
key is cached. -/
def Inv3 (s : Session) : Prop :=
  (∀ k ∈ s.m_updated_keys, k ∉ s.m_deleted_keys) ∧
  (∀ k ∈ s.m_updated_keys, k ∈ keysOf s.m_cache) ∧
  (∀ k ∈ s.m_deleted_keys, k ∉ keysOf s.m_cache)

/-- Structural well-formedness: the invariants plus the write cache's map
property (strictly sorted keys). -/
def WF (s : Session) : Prop := Inv3 s ∧ SortedStore s.m_cache

instance (s : Session) : Decidable (Inv3 s) := by
  unfold Inv3
  infer_instance

instance (s : Session) : Decidable (WF s) := by
  unfold WF
  infer_instance

/-! ## C1: commit -/

/-- The leaf store of the spec's scenario S2: `{[0] ↦ [1]}`. -/
def s2leaf : Store := [([0], [1])]

/-- The session of scenario S2 just before `commit`: writes `([0],[9])`
and `([2],[3])`, then `erase [0]`, then `write ([0],[7])`. -/
def s2session : Session :=
  ((((make_session.attach s2leaf).write [0] [9]).write [2] [3]).erase [0]).write [0] [7]

/-! FlagsOk: every iterator-cache entry flagged `deleted` really is
tombstoned.  (The session operations maintain this: `erase` is the only
operation that sets the flag, and it inserts the key into
`m_deleted_keys`.) -/

/-- Every iterator-cache entry flagged `deleted` corresponds to a key in
`m_deleted_keys`. -/
def FlagsOk (s : Session) : Prop :=
  ∀ kv ∈ s.m_iterator_cache, kv.2.deleted = true → kv.1 ∈ s.m_deleted_keys

instance (s : Session) : Decidable (FlagsOk s) := by
  unfold FlagsOk
  infer_instance

/-- The witness leaf for the amended C4: keys `[0]` and `[2]`. -/
def c4bleaf : Store := [([0], [9]), ([2], [11])]

/-- The witness session for the amended C4. -/
def c4bsession : Session := make_session.attach c4bleaf

theorem bytesLt_irrefl (a : Bytes) : bytesLt a a = false := by
  induction a with
  | nil => rfl
  | cons x xs ih => simp [bytesLt, ih]

theorem bytesLt_trans {a b c : Bytes} (h1 : bytesLt a b = true) (h2 : bytesLt b c = true) :
    bytesLt a c = true := by
  induction a generalizing b c with
  | nil =>
    cases b with
    | nil => simp [bytesLt] at h1
    | cons y ys =>
      cases c with
      | nil => simp [bytesLt] at h2
      | cons z zs => rfl
  | cons x xs ih =>
    cases b with
    | nil => simp [bytesLt] at h1
    | cons y ys =>
      cases c with
      | nil => simp [bytesLt] at h2
      | cons z zs =>
        simp only [bytesLt] at h1 h2 ⊢
        by_cases hxy : x < y
        · by_cases hyz : y < z
          · simp [show x < z from lt_trans hxy hyz]
          · simp only [if_pos hxy] at h1
            by_cases hzy : z < y
            · simp [hyz, hzy] at h2
            · have : y = z := le_antisymm (not_lt.mp hzy) (not_lt.mp hyz)
              subst this
              simp [hxy]
        · simp only [if_neg hxy] at h1
          by_cases hyx : y < x
          · simp [hyx] at h1
          · have hxeq : x = y := le_antisymm (not_lt.mp hyx) (not_lt.mp hxy)
            subst hxeq
            simp only [if_neg (lt_irrefl x)] at h1
            by_cases hxz : x < z
            · simp [hxz]
            · simp only [if_neg hxz] at h2 ⊢
              by_cases hzx : z < x
              · simp [hzx] at h2
              · simp only [if_neg hzx] at h2 ⊢
                exact ih h1 h2

theorem bytesLt_asymm {a b : Bytes} (h : bytesLt a b = true) : bytesLt b a = false := by
  by_contra hc
  have hba : bytesLt b a = true := by
    cases hv : bytesLt b a
    · exact absurd hv hc
    · rfl
  have := bytesLt_trans h hba
  rw [bytesLt_irrefl] at this
  exact Bool.noConfusion this

theorem bytesLt_total {a b : Bytes} (h1 : bytesLt a b = false) (h2 : bytesLt b a = false) :
    a = b := by
  induction a generalizing b with
  | nil =>
    cases b with
    | nil => rfl
    | cons y ys => simp [bytesLt] at h1
  | cons x xs ih =>
    cases b with
    | nil => simp [bytesLt] at h2
    | cons y ys =>
      simp only [bytesLt] at h1 h2
      by_cases hxy : x < y
      · simp [hxy] at h1
      · by_cases hyx : y < x
        · simp [hyx, hxy] at h2
        · have hxeq : x = y := le_antisymm (not_lt.mp hyx) (not_lt.mp hxy)
          subst hxeq
          simp only [if_neg (lt_irrefl x)] at h1 h2
          rw [ih h1 h2]

theorem sameCore_refl (a : Session) : SameCore a a := ⟨rfl, rfl, rfl, rfl⟩

theorem sameCore_trans {a b c : Session} (h1 : SameCore a b) (h2 : SameCore b c) :
    SameCore a c :=
  ⟨h1.1.trans h2.1, h1.2.1.trans h2.2.1, h1.2.2.1.trans h2.2.2.1, h1.2.2.2.trans h2.2.2.2⟩

theorem sameCore_icache (s : Session) (ic : ICache) :
    SameCore { s with m_iterator_cache := ic } s := ⟨rfl, rfl, rfl, rfl⟩

theorem sameCore_emplaceKey (key : Bytes) (s : Session) :
    SameCore (emplaceKey key s) s := sameCore_icache s _

theorem sameCore_overwriteStep (key : Bytes) (p : IterCacheParams) (s : Session) :
    SameCore (overwriteStep key p s) s := by
  unfold overwriteStep
  split
  · exact sameCore_icache s _
  · exact sameCore_refl s

theorem sameCore_applyLower (key : Bytes) (s : Session) (b : SB) :
    SameCore (applyLower key s b) s := by
  unfold applyLower
  cases b with
  | none => exact sameCore_refl s
  | some l => exact sameCore_icache s _

theorem sameCore_applyUpper (key : Bytes) (s : Session) (b : SB) :
    SameCore (applyUpper key s b) s := by
  unfold applyUpper
  cases b with
  | none => exact sameCore_refl s
  | some u => exact sameCore_icache s _

theorem sameCore_recalcStep (bf : Session → Bytes → Session × SB × SB)
    (hbf : ∀ s k, SameCore (bf s k).1 s) (key : Bytes) (p : IterCacheParams) (s : Session) :
    SameCore (recalcStep bf key p s) s := by
  unfold recalcStep
  split
  · exact sameCore_refl s
  · split
    rename_i heq s3 lowerB upperB hbfeq
    have h : SameCore s3 s := by
      have hh := hbf s key
      rw [hbfeq] at hh
      exact hh
    exact sameCore_trans (sameCore_applyUpper _ _ _)
      (sameCore_trans (sameCore_applyLower _ _ _) h)

theorem sameCore_update_core (bf : Session → Bytes → Session × SB × SB)
    (hbf : ∀ s k, SameCore (bf s k).1 s) (s : Session) (k : Bytes) (p : IterCacheParams) :
    SameCore (update_iterator_cache_core bf s k p) s := by
  unfold update_iterator_cache_core
  split
  · exact sameCore_emplaceKey k s
  · exact sameCore_trans (sameCore_recalcStep bf hbf k p _)
      (sameCore_trans (sameCore_overwriteStep k p _) (sameCore_emplaceKey k s))

theorem sameCore_updatePrimeOnly (s : Session) (k : Bytes) (p : IterCacheParams) :
    SameCore (updatePrimeOnly s k p) s :=
  sameCore_update_core _ (fun s _ => sameCore_refl s) s k p

theorem sameCore_makeIterPos (ck : Bytes) (s' : Session) :
    SameCore (makeIterPos ck s').1 s' := by
  unfold makeIterPos
  split
  · split
    · exact sameCore_refl s'
    · exact sameCore_refl s'
  · exact sameCore_refl s'

theorem sameCore_makeIterFinish (upd : Session → Bytes → IterCacheParams → Session)
    (hupd : ∀ s k p, SameCore (upd s k p) s) (primeOnly : Bool) (s : Session) (b : SB) :
    SameCore (makeIterFinish upd primeOnly s b).1 s := by
  cases b with
  | none => exact sameCore_refl s
  | some ck =>
    exact sameCore_trans (sameCore_makeIterPos ck _) (hupd s ck _)

theorem sameCore_makeIterAux (upd : Session → Bytes → IterCacheParams → Session)
    (hupd : ∀ s k p, SameCore (upd s k p) s) (primeOnly : Bool) (s : Session)
    (predIdx : Store → Nat) (cmp : SB → SB → Bool) (mv : MoveKind) :
    SameCore (makeIterAux upd primeOnly s predIdx cmp mv).1 s :=
  sameCore_makeIterFinish upd hupd primeOnly s _

theorem sameCore_bounds_ (s : Session) (k : Bytes) : SameCore (s.bounds_ k).1 s := by
  unfold Session.bounds_
  exact sameCore_trans
    (sameCore_makeIterAux _ sameCore_updatePrimeOnly _ _ _ _ _)
    (sameCore_trans
      (sameCore_makeIterAux _ sameCore_updatePrimeOnly _ _ _ _ _)
      (sameCore_makeIterAux _ sameCore_updatePrimeOnly _ _ _ _ _))

theorem sameCore_update_iterator_cache_ (s : Session) (k : Bytes) (p : IterCacheParams) :
    SameCore (s.update_iterator_cache_ k p) s :=
  sameCore_update_core _ sameCore_bounds_ s k p

/-! ## Key-set and store lemmas -/

theorem mem_setInsert_self (k : Bytes) (l : List Bytes) : k ∈ setInsert k l := by
  unfold setInsert
  split
  · assumption
  · exact List.mem_cons_self k l

theorem mem_setInsert {x k : Bytes} {l : List Bytes} :
    x ∈ setInsert k l ↔ x = k ∨ x ∈ l := by
  unfold setInsert
  split
  · rename_i h
    constructor
    · exact Or.inr
    · rintro (rfl | hx)
      · exact h
      · exact hx
  · exact List.mem_cons

theorem mem_setErase {x k : Bytes} {l : List Bytes} :
    x ∈ setErase k l ↔ x ∈ l ∧ x ≠ k := by
  unfold setErase
  simp [List.mem_filter]

theorem not_mem_setErase_self (k : Bytes) (l : List Bytes) : k ∉ setErase k l := by
  intro h
  exact (mem_setErase.mp h).2 rfl

theorem read_write (st : Store) (k v : Bytes) (x : Bytes) :
    Store.read (Store.write st k v) x = if x = k then some v else Store.read st x := by
  induction st with
  | nil =>
    by_cases hx : x = k <;> simp [Store.write, Store.read, hx]
  | cons hd tl ih =>
    obtain ⟨k', v'⟩ := hd
    simp only [Store.write]
    by_cases h1 : bytesLt k k'
    · simp only [if_pos h1]
      by_cases hx : x = k <;> simp [Store.read, hx]
    · simp only [if_neg h1]
      by_cases h2 : k = k'
      · subst h2
        by_cases hx : x = k <;> simp [Store.read, hx]
      · simp only [if_neg h2]
        by_cases hx : x = k'
        · subst hx
          have : ¬ x = k := fun hh => h2 hh.symm
          simp [Store.read, this]
        · simp [Store.read, hx, ih]

theorem read_eq_none_of_not_mem {st : Store} {k : Bytes} (h : k ∉ keysOf st) :
    Store.read st k = none := by
  induction st with
  | nil => rfl
  | cons hd tl ih =>
    obtain ⟨k', v'⟩ := hd
    simp only [keysOf, List.map_cons, List.mem_cons] at h
    push_neg at h
    simp only [Store.read, if_neg h.1]
    exact ih (by simpa [keysOf] using h.2)

theorem isSome_read_of_mem {st : Store} {k : Bytes} (h : k ∈ keysOf st) :
    (Store.read st k).isSome = true := by
  induction st with
  | nil => simp [keysOf] at h
  | cons hd tl ih =>
    obtain ⟨k', v'⟩ := hd
    by_cases hk : k = k'
    · simp [Store.read, hk]
    · simp only [keysOf, List.map_cons, List.mem_cons] at h
      rcases h with h | h
      · exact absurd h hk
      · simp only [Store.read, if_neg hk]
        exact ih h

theorem mem_keysOf_write {st : Store} {k v x : Bytes} :
    x ∈ keysOf (Store.write st k v) ↔ x = k ∨ x ∈ keysOf st := by
  induction st with
  | nil => simp [Store.write, keysOf]
  | cons hd tl ih =>
    obtain ⟨k', v'⟩ := hd
    by_cases h1 : bytesLt k k'
    · rw [show Store.write ((k', v') :: tl) k v = (k, v) :: (k', v') :: tl from by
        simp [Store.write, h1]]
      simp only [keysOf, List.map_cons, List.mem_cons]
    · by_cases h2 : k = k'
      · rw [show Store.write ((k', v') :: tl) k v = (k, v) :: tl from by
          simp [Store.write, h1, h2, bytesLt_irrefl]]
        subst h2
        simp only [keysOf, List.map_cons, List.mem_cons]
        tauto
      · rw [show Store.write ((k', v') :: tl) k v = (k', v') :: Store.write tl k v from by
          simp [Store.write, h1, h2]]
        simp only [keysOf, List.map_cons, List.mem_cons] at ih ⊢
        rw [ih]
        tauto

theorem bool_false_of_not_true {b : Bool} (h : ¬ b = true) : b = false := by
  cases b with
  | false => rfl
  | true => exact absurd rfl h

theorem sorted_write {st : Store} (k v : Bytes) (h : SortedStore st) :
    SortedStore (Store.write st k v) := by
  induction st with
  | nil => simp [Store.write, SortedStore, SortedKeys, keysOf]
  | cons hd tl ih =>
    obtain ⟨k', v'⟩ := hd
    simp only [SortedStore, SortedKeys, keysOf, List.map_cons, List.pairwise_cons] at h
    obtain ⟨hk', htl⟩ := h
    by_cases h1 : bytesLt k k'
    · rw [show Store.write ((k', v') :: tl) k v = (k, v) :: (k', v') :: tl from by
        simp [Store.write, h1]]
      simp only [SortedStore, SortedKeys, keysOf, List.map_cons, List.pairwise_cons]
      refine ⟨?_, hk', htl⟩
      intro x hx
      rcases List.mem_cons.mp hx with rfl | hx
      · exact h1
      · exact bytesLt_trans h1 (hk' x hx)
    · by_cases h2 : k = k'
      · rw [show Store.write ((k', v') :: tl) k v = (k, v) :: tl from by
          simp [Store.write, h1, h2, bytesLt_irrefl]]
        subst h2
        simp only [SortedStore, SortedKeys, keysOf, List.map_cons, List.pairwise_cons]
        exact ⟨hk', htl⟩
      · rw [show Store.write ((k', v') :: tl) k v = (k', v') :: Store.write tl k v from by
          simp [Store.write, h1, h2]]
        simp only [SortedStore, SortedKeys, keysOf, List.map_cons, List.pairwise_cons]
        constructor
        · intro x hx
          rw [show List.map Prod.fst (Store.write tl k v) = keysOf (Store.write tl k v) from rfl]
            at hx
          rcases mem_keysOf_write.mp hx with rfl | hx
          · cases hlt : bytesLt k' x with
            | true => rfl
            | false => exact absurd (bytesLt_total (bool_false_of_not_true h1) hlt) h2
          · exact hk' x hx
        · exact ih htl

theorem eraseKey_sublist (st : Store) (k : Bytes) : (Store.eraseKey st k).Sublist st := by
  induction st with
  | nil => simp [Store.eraseKey]
  | cons hd tl ih =>
    obtain ⟨k', v'⟩ := hd
    by_cases h : k = k'
    · rw [show Store.eraseKey ((k', v') :: tl) k = tl from by simp [Store.eraseKey, h]]
      exact (List.sublist_cons_self _ _)
    · rw [show Store.eraseKey ((k', v') :: tl) k = (k', v') :: Store.eraseKey tl k from by
        simp [Store.eraseKey, h]]
      exact List.Sublist.cons₂ _ ih

theorem sorted_eraseKey {st : Store} (k : Bytes) (h : SortedStore st) :
    SortedStore (Store.eraseKey st k) :=
  List.Pairwise.sublist ((eraseKey_sublist st k).map Prod.fst) h

theorem mem_keysOf_eraseKey {st : Store} {k x : Bytes}
    (h : x ∈ keysOf (Store.eraseKey st k)) : x ∈ keysOf st :=
  ((eraseKey_sublist st k).map Prod.fst).mem h

theorem not_mem_keysOf_eraseKey_self {st : Store} (k : Bytes) (h : SortedStore st) :
    k ∉ keysOf (Store.eraseKey st k) := by
  induction st with
  | nil => simp [Store.eraseKey, keysOf]
  | cons hd tl ih =>
    obtain ⟨k', v'⟩ := hd
    simp only [SortedStore, SortedKeys, keysOf, List.map_cons, List.pairwise_cons] at h
    obtain ⟨hk', htl⟩ := h
    by_cases hk : k = k'
    · rw [show Store.eraseKey ((k', v') :: tl) k = tl from by simp [Store.eraseKey, hk]]
      subst hk
      intro hmem
      have := hk' k hmem
      rw [bytesLt_irrefl] at this
      exact Bool.noConfusion this
    · rw [show Store.eraseKey ((k', v') :: tl) k = (k', v') :: Store.eraseKey tl k from by
        simp [Store.eraseKey, hk]]
      simp only [keysOf, List.map_cons, List.mem_cons]
      push_neg
      exact ⟨hk, ih htl⟩

theorem read_eraseKey {st : Store} (k x : Bytes) (h : SortedStore st) :
    Store.read (Store.eraseKey st k) x = if x = k then none else Store.read st x := by
  induction st with
  | nil => by_cases hx : x = k <;> simp [Store.eraseKey, Store.read, hx]
  | cons hd tl ih =>
    obtain ⟨k', v'⟩ := hd
    have hsub : SortedStore tl := by
      simp only [SortedStore, SortedKeys, keysOf, List.map_cons, List.pairwise_cons] at h
      exact h.2
    by_cases hk : k = k'
    · rw [show Store.eraseKey ((k', v') :: tl) k = tl from by simp [Store.eraseKey, hk]]
      subst hk
      by_cases hx : x = k
      · subst hx
        rw [if_pos rfl]
        refine read_eq_none_of_not_mem ?_
        simp only [SortedStore, SortedKeys, keysOf, List.map_cons, List.pairwise_cons] at h
        intro hmem
        have := h.1 x hmem
        rw [bytesLt_irrefl] at this
        exact Bool.noConfusion this
      · simp [Store.read, hx]
    · rw [show Store.eraseKey ((k', v') :: tl) k = (k', v') :: Store.eraseKey tl k from by
        simp [Store.eraseKey, hk]]
      by_cases hx : x = k'
      · subst hx
        have : ¬ x = k := fun hh => hk hh.symm
        simp [Store.read, this]
      · simp only [Store.read, if_neg hx]
        exact ih hsub

theorem sorted_eraseKeys {p : Store} (del : List Bytes) (h : SortedStore p) :
    SortedStore (Store.eraseKeys p del) := by
  induction del generalizing p with
  | nil => exact h
  | cons d rest ih => exact ih (sorted_eraseKey d h)

theorem read_eraseKeys {p : Store} (del : List Bytes) (x : Bytes) (h : SortedStore p) :
    Store.read (Store.eraseKeys p del) x = if x ∈ del then none else Store.read p x := by
  induction del generalizing p with
  | nil => simp [Store.eraseKeys]
  | cons d rest ih =>
    rw [show Store.eraseKeys p (d :: rest) = Store.eraseKeys (Store.eraseKey p d) rest from rfl]
    rw [ih (sorted_eraseKey d h)]
    by_cases hx : x ∈ rest
    · simp [hx, List.mem_cons]
    · rw [if_neg hx, read_eraseKey d x h]
      by_cases hxd : x = d
      · simp [hxd]
      · simp [hxd, hx]

theorem read_write_to (cache : Store) (updated : List Bytes) (p1 : Store) (x : Bytes) :
    Store.read (Store.write_to cache p1 updated) x =
      if x ∈ updated ∧ (Store.read cache x).isSome then Store.read cache x
      else Store.read p1 x := by
  induction updated generalizing p1 with
  | nil => simp [Store.write_to]
  | cons u rest ih =>
    have hstep : Store.write_to cache p1 (u :: rest) =
        Store.write_to cache
          (match Store.read cache u with
           | some v => Store.write p1 u v
           | none => p1) rest := rfl
    rw [hstep, ih]
    by_cases hmem : x ∈ rest ∧ (Store.read cache x).isSome
    · rw [if_pos hmem, if_pos ⟨List.mem_cons_of_mem u hmem.1, hmem.2⟩]
    · rw [if_neg hmem]
      rcases hcu : Store.read cache u with _ | v
      · by_cases hxu : x = u
        · subst hxu
          rw [if_neg (by simp [hcu])]
        · rw [if_neg (by
            rintro ⟨hx1, hx2⟩
            rcases List.mem_cons.mp hx1 with rfl | hx1
            · exact hxu rfl
            · exact hmem ⟨hx1, hx2⟩)]
      · rw [read_write]
        by_cases hxu : x = u
        · subst hxu
          rw [if_pos rfl, if_pos ⟨List.mem_cons_self x rest, by simp [hcu]⟩, hcu]
        · rw [if_neg hxu]
          rw [if_neg (by
            rintro ⟨hx1, hx2⟩
            rcases List.mem_cons.mp hx1 with rfl | hx1
            · exact hxu rfl
            · exact hmem ⟨hx1, hx2⟩)]

theorem mem_keysOf_filter {st : Store} {u : List Bytes} {x : Bytes} :
    x ∈ keysOf (st.filter (fun kv => decide (kv.1 ∈ u))) ↔ x ∈ keysOf st ∧ x ∈ u := by
  induction st with
  | nil => simp [keysOf]
  | cons hd tl ih =>
    obtain ⟨k', v'⟩ := hd
    by_cases hk : k' ∈ u
    · rw [show ((k', v') :: tl).filter (fun kv => decide (kv.1 ∈ u)) =
          (k', v') :: tl.filter (fun kv => decide (kv.1 ∈ u)) from by
        simp [List.filter_cons, hk]]
      simp only [keysOf, List.map_cons, List.mem_cons] at ih ⊢
      rw [ih]
      constructor
      · rintro (rfl | ⟨h1, h2⟩)
        · exact ⟨Or.inl rfl, hk⟩
        · exact ⟨Or.inr h1, h2⟩
      · rintro ⟨rfl | h1, h2⟩
        · exact Or.inl rfl
        · exact Or.inr ⟨h1, h2⟩
    · rw [show ((k', v') :: tl).filter (fun kv => decide (kv.1 ∈ u)) =
          tl.filter (fun kv => decide (kv.1 ∈ u)) from by
        simp [List.filter_cons, hk]]
      simp only [keysOf, List.map_cons, List.mem_cons] at ih ⊢
      rw [ih]
      constructor
      · rintro ⟨h1, h2⟩
        exact ⟨Or.inr h1, h2⟩
      · rintro ⟨rfl | h1, h2⟩
        · exact absurd h2 hk
        · exact ⟨h1, h2⟩

theorem sorted_filter {st : Store} (p : Bytes × Bytes → Bool) (h : SortedStore st) :
    SortedStore (st.filter p) :=
  List.Pairwise.sublist ((List.filter_sublist st).map Prod.fst) h

/-! ## Field characterizations of the mutating operations -/

theorem erase_fields (s : Session) (k : Bytes) :
    (s.erase k).m_deleted_keys = setInsert k s.m_deleted_keys ∧
    (s.erase k).m_updated_keys = setErase k s.m_updated_keys ∧
    (s.erase k).m_cache = Store.eraseKey s.m_cache k ∧
    (s.erase k).m_parent = s.m_parent := by
  unfold Session.erase
  have h := sameCore_update_iterator_cache_
    { s with
      m_deleted_keys := setInsert k s.m_deleted_keys
      m_updated_keys := setErase k s.m_updated_keys
      m_cache := Store.eraseKey s.m_cache k } k
    { prime_only := false, recalculate := true, mark_deleted := true, overwrite := true }
  exact ⟨h.2.2.2, h.2.2.1, h.2.1, h.1⟩

theorem write_fields (s : Session) (k v : Bytes) :
    (s.write k v).m_updated_keys = setInsert k s.m_updated_keys ∧
    (s.write k v).m_deleted_keys = setErase k s.m_deleted_keys ∧
    (s.write k v).m_cache = Store.write s.m_cache k v ∧
    (s.write k v).m_parent = s.m_parent := by
  unfold Session.write
  have h := sameCore_update_iterator_cache_
    { s with
      m_updated_keys := setInsert k s.m_updated_keys
      m_deleted_keys := setErase k s.m_deleted_keys
      m_cache := Store.write s.m_cache k v } k
    { prime_only := false, recalculate := true, mark_deleted := false, overwrite := true }
  exact ⟨h.2.2.1, h.2.2.2, h.2.1, h.1⟩

theorem read_of_mem_deleted {s : Session} {k : Bytes} (h : k ∈ s.m_deleted_keys) :
    s.read k = (none, s) := by
  unfold Session.read
  rw [if_pos h]

theorem contains_of_mem_deleted {s : Session} {k : Bytes} (h : k ∈ s.m_deleted_keys) :
    s.contains k = (false, s) := by
  unfold Session.contains
  rw [if_pos h]

theorem read_of_cache_hit {s : Session} {k v : Bytes} (h1 : k ∉ s.m_deleted_keys)
    (h2 : Store.read s.m_cache k = some v) : s.read k = (some v, s) := by
  unfold Session.read
  rw [if_neg h1, h2]

/-! ## Claim theorems -/

/-- C5: for every session and key `k`, immediately after `erase(k)`:
`read(k)` returns the invalid sentinel and `contains(k)` returns `false`,
even if the parent chain holds a value for `k` (the session and its parent
are universally quantified). -/
theorem claim_C5_erase_masks (s : Session) (k : Bytes) :
    ((s.erase k).read k).1 = none ∧ ((s.erase k).contains k).1 = false := by
  obtain ⟨hdel, _, _, _⟩ := erase_fields s k
  have hmem : k ∈ (s.erase k).m_deleted_keys := by
    rw [hdel]
    exact mem_setInsert_self k _
  rw [read_of_mem_deleted hmem, contains_of_mem_deleted hmem]
  exact ⟨rfl, rfl⟩

/-- C6: for every session, key `k` and value `v`, after `erase(k)` followed
by `write(k, v)`: `read(k)` returns `v`, `is_deleted(k)` is `false`, `k` is
in `updated_keys` and not in `deleted_keys`. -/
theorem claim_C6_erase_then_write (s : Session) (k v : Bytes) :
    (((s.erase k).write k v).read k).1 = some v ∧
    ((s.erase k).write k v).is_deleted k = false ∧
    k ∈ ((s.erase k).write k v).m_updated_keys ∧
    k ∉ ((s.erase k).write k v).m_deleted_keys := by
  obtain ⟨hupd, hdel, hcache, _⟩ := write_fields (s.erase k) k v
  have hnotdel : k ∉ ((s.erase k).write k v).m_deleted_keys := by
    rw [hdel]
    exact not_mem_setErase_self k _
  have hread : Store.read ((s.erase k).write k v).m_cache k = some v := by
    rw [hcache, read_write]
    simp
  have hupdmem : k ∈ ((s.erase k).write k v).m_updated_keys := by
    rw [hupd]
    exact mem_setInsert_self k _
  refine ⟨?_, ?_, hupdmem, hnotdel⟩
  · rw [read_of_cache_hit hnotdel hread]
  · unfold Session.is_deleted
    rw [if_neg hnotdel, if_pos hupdmem]

/-- C10: for every session and key `k` (with the leaf parent satisfying
`contains(k) ⟺ read(k) ≠ invalid` by the modelled parent contract),
`contains(k)` returns `true` exactly when `read(k)` returns a value
different from the invalid sentinel. -/
theorem claim_C10_contains_iff_read (s : Session) (k : Bytes) :
    (s.contains k).1 = true ↔ (s.read k).1 ≠ none := by
  unfold Session.contains Session.read
  by_cases h1 : k ∈ s.m_deleted_keys
  · simp [h1]
  · rw [if_neg h1, if_neg h1]
    rcases hc : Store.read s.m_cache k with _ | v
    · rcases hp : s.m_parent with _ | p
      · simp [hc, hp]
      · rcases hr : Store.read p k with _ | v
        · simp [hc, hp, hr]
        · simp [hc, hp, hr]
    · simp [hc]

/-- C2 (code bug): on `c2session` the logical view is
`{[0], [1], [2], [3], [4]}` with nothing tombstoned, yet forward iteration
from `begin()` visits `[0], [1], [3], [4]` — skipping the live key `[2]` —
and then cycles with period 4 without ever producing the end sentinel, so a
sweep compared against a captured `end()` neither visits every key nor
terminates.  The skip comes from the stale `next_in_cache` hint planted on
`[1]` when `bounds_([3])` chose the smaller of the two per-source
predecessors. -/
theorem claim_C2_code_bug :
    iterPositions 5 c2session.beginIter =
      [some [0], some [1], some [3], some [4], some [0], some [1]] ∧
    InLogicalView c2session [2] ∧ c2session.is_deleted [2] = false ∧
    some [2] ∉ iterPositions 5 c2session.beginIter ∧
    none ∉ iterPositions 5 c2session.beginIter ∧
    c2step^[5] c2session.beginIter = c2step^[1] c2session.beginIter := by
  decide

/-- C4 counterexample: `[0]` is in the logical view, is not tombstoned and
is strictly less than `[1]`, so the claim says `bounds([1])` returns `[0]`
as the predecessor; the code returns the invalid sentinel because the
parent's `lower_bound([1])` already sits at `end`, which the `lower` lambda
maps to `end` instead of stepping back. -/
theorem claim_C4_counterexample :
    (c4session.bounds_ [1]).2.1 = none ∧
    InLogicalView c4session [0] ∧ bytesLt [0] [1] = true ∧
    c4session.is_deleted [0] = false := by
  decide

/-- C8 (code bug): comparing iterators over `c8session`.  With the end
iterator on the right or on both sides `operator==` is as claimed, but with
the end iterator on the left and a non-end iterator on the right the
source's third statement dereferences the end iterator of the iterator
cache (`this->m_active_iterator->first`), which has no defined result
(modelled as `none`), instead of returning `false` as the claim states. -/
theorem claim_C8_code_bug :
    c8session.endIter.2 = none ∧ c8session.beginIter.2 = some [0] ∧
    iterEq c8session.endIter.2 c8session.beginIter.2 = none ∧
    iterEq c8session.beginIter.2 c8session.endIter.2 = some false ∧
    iterEq c8session.endIter.2 c8session.endIter.2 = some true ∧
    iterEq c8session.beginIter.2 c8session.beginIter.2 = some true := by
  decide

/-- C9: for every key absent from the local layer (not tombstoned, not in
the write cache) but readable from the parent with a non-invalid value,
`read(k)` returns that value and stores it into the local `write_cache`
without adding `k` to `updated_keys`; the parent, `updated_keys` and
`deleted_keys` are unchanged (only `write_cache` and the iterator cache
move). -/
theorem claim_C9_read_through (s : Session) (k v : Bytes) (p : Store)
    (hp : s.m_parent = some p) (hdel : k ∉ s.m_deleted_keys)
    (hmiss : Store.read s.m_cache k = none) (hhit : Store.read p k = some v) :
    (s.read k).1 = some v ∧
    Store.read (s.read k).2.m_cache k = some v ∧
    (s.read k).2.m_cache = Store.write s.m_cache k v ∧
    (s.read k).2.m_updated_keys = s.m_updated_keys ∧
    (s.read k).2.m_deleted_keys = s.m_deleted_keys ∧
    (s.read k).2.m_parent = s.m_parent := by
  have hread : s.read k =
      (some v,
        Session.update_iterator_cache_ { s with m_cache := Store.write s.m_cache k v } k
          { prime_only := false, recalculate := true, mark_deleted := false,
            overwrite := false }) := by
    unfold Session.read
    rw [if_neg hdel, hmiss]
    dsimp only
    rw [hp]
    dsimp only
    rw [hhit]
  have hcore := sameCore_update_iterator_cache_
    { s with m_cache := Store.write s.m_cache k v } k
    { prime_only := false, recalculate := true, mark_deleted := false, overwrite := false }
  rw [hread]
  refine ⟨rfl, ?_, ?_, ?_, ?_, ?_⟩
  · rw [show (some v,
        Session.update_iterator_cache_ { s with m_cache := Store.write s.m_cache k v } k
          { prime_only := false, recalculate := true, mark_deleted := false,
            overwrite := false }).2.m_cache = Store.write s.m_cache k v from hcore.2.1]
    rw [read_write]
    simp
  · exact hcore.2.1
  · exact hcore.2.2.1
  · exact hcore.2.2.2
  · exact hcore.1.trans
      (show ({ s with m_cache := Store.write s.m_cache k v } : Session).m_parent = s.m_parent
        from rfl)

/-! ## C7: attach / detach -/

theorem sorted_head_min {l : List Bytes} (h : SortedKeys l) {k0 x : Bytes}
    (h0 : l.head? = some k0) (hx : x ∈ l) : bytesLt x k0 = false := by
  cases l with
  | nil => cases h0
  | cons a rest =>
    have ha : a = k0 := by
      simpa using h0
    subst ha
    rcases List.mem_cons.mp hx with rfl | hx
    · exact bytesLt_irrefl x
    · unfold SortedKeys at h
      exact bytesLt_asymm ((List.pairwise_cons.mp h).1 x hx)

theorem mem_of_getLast? {α : Type} {l : List α} {kl : α} (h : l.getLast? = some kl) :
    kl ∈ l := by
  induction l with
  | nil => cases h
  | cons a rest ih =>
    cases rest with
    | nil =>
      have : a = kl := by simpa [List.getLast?] using h
      subst this
      exact List.mem_cons_self _ _
    | cons b rest' =>
      rw [List.getLast?_cons_cons] at h
      exact List.mem_cons_of_mem a (ih h)

theorem sorted_getLast_max {l : List Bytes} (h : SortedKeys l) {kl x : Bytes}
    (hl : l.getLast? = some kl) (hx : x ∈ l) : bytesLt kl x = false := by
  induction l with
  | nil => cases hl
  | cons a rest ih =>
    unfold SortedKeys at h
    obtain ⟨ha, hrest⟩ := List.pairwise_cons.mp h
    cases rest with
    | nil =>
      have : a = kl := by simpa [List.getLast?] using hl
      subst this
      have : x = a := by simpa using hx
      subst this
      exact bytesLt_irrefl x
    | cons b rest' =>
      rw [List.getLast?_cons_cons] at hl
      rcases List.mem_cons.mp hx with rfl | hx
      · have hkl : kl ∈ b :: rest' := mem_of_getLast? hl
        exact bytesLt_asymm (ha kl hkl)
      · exact ih hrest hl hx

theorem head?_keysOf {p : Store} {kv : Bytes × Bytes} (h : p.head? = some kv) :
    (keysOf p).head? = some kv.1 := by
  cases p with
  | nil => cases h
  | cons hd tl =>
    have : hd = kv := by simpa using h
    subst this
    rfl

theorem getLast?_keysOf {p : Store} {kv : Bytes × Bytes} (h : p.getLast? = some kv) :
    (keysOf p).getLast? = some kv.1 := by
  induction p with
  | nil => cases h
  | cons hd tl ih =>
    cases tl with
    | nil =>
      have : hd = kv := by simpa [List.getLast?] using h
      subst this
      rfl
    | cons b tl' =>
      rw [List.getLast?_cons_cons] at h
      have h1 := ih h
      have h2 : (hd.1 :: b.1 :: keysOf tl').getLast? = (b.1 :: keysOf tl').getLast? :=
        List.getLast?_cons_cons
      exact h2.trans h1

/-- C7: `attach` and `detach` are total (stated for every session state and
every sorted parent, the empty parent included): `attach(p)` installs `p`
as the parent and rebuilds the iterator cache so that it holds exactly the
parent's minimum and maximum keys with default states (nothing when the
parent is empty); `detach` clears only the parent reference. -/
theorem claim_C7_attach_detach (s : Session) (p : Store) (hp : SortedStore p) :
    (s.attach p).m_parent = some p ∧
    s.detach.m_parent = none ∧
    s.detach.m_cache = s.m_cache ∧
    s.detach.m_iterator_cache = s.m_iterator_cache ∧
    s.detach.m_updated_keys = s.m_updated_keys ∧
    s.detach.m_deleted_keys = s.m_deleted_keys ∧
    (p = [] → (s.attach p).m_iterator_cache = []) ∧
    (∀ kv0 kvl, p.head? = some kv0 → p.getLast? = some kvl →
      ((s.attach p).m_iterator_cache =
        if kv0.1 = kvl.1 then [(kv0.1, {})] else [(kv0.1, {}), (kvl.1, {})]) ∧
      (∀ x ∈ keysOf p, bytesLt x kv0.1 = false ∧ bytesLt kvl.1 x = false)) := by
  refine ⟨rfl, rfl, rfl, rfl, rfl, rfl, ?_, ?_⟩
  · rintro rfl
    rfl
  · intro kv0 kvl h0 hl
    have hmin : ∀ x ∈ keysOf p, bytesLt x kv0.1 = false := fun x hx =>
      sorted_head_min hp (head?_keysOf h0) hx
    have hmax : ∀ x ∈ keysOf p, bytesLt kvl.1 x = false := fun x hx =>
      sorted_getLast_max hp (getLast?_keysOf hl) hx
    refine ⟨?_, fun x hx => ⟨hmin x hx, hmax x hx⟩⟩
    have hic : (s.attach p).m_iterator_cache =
        icacheEmplace (icacheEmplace [] kv0.1) kvl.1 := by
      unfold Session.attach Session.prime_cache_
      rw [show ({ s with m_parent := some p } : Session).m_parent = some p from rfl]
      simp only [h0, hl]
    rw [hic]
    have hl0 : bytesLt kvl.1 kv0.1 = false :=
      hmin kvl.1 (List.mem_map_of_mem Prod.fst (mem_of_getLast? (l := p) hl))
    by_cases heq : kv0.1 = kvl.1
    · rw [if_pos heq]
      simp [icacheEmplace, heq.symm, bytesLt_irrefl]
    · rw [if_neg heq]
      have hne : ¬ kvl.1 = kv0.1 := fun hh => heq hh.symm
      simp [icacheEmplace, hl0, hne]

theorem wf_of_sameCore {a b : Session} (h : SameCore a b) (hb : WF b) : WF a := by
  obtain ⟨hp, hc, hu, hd⟩ := h
  unfold WF Inv3 SortedStore at hb ⊢
  rw [hc, hu, hd]
  exact hb

theorem mem_keysOf_eraseKey_of_ne {st : Store} {k x : Bytes} (hx : x ∈ keysOf st)
    (hne : x ≠ k) : x ∈ keysOf (Store.eraseKey st k) := by
  induction st with
  | nil => simp [keysOf] at hx
  | cons hd tl ih =>
    obtain ⟨k', v'⟩ := hd
    by_cases hk : k = k'
    · rw [show Store.eraseKey ((k', v') :: tl) k = tl from by simp [Store.eraseKey, hk]]
      rcases List.mem_cons.mp hx with rfl | hx
      · exact absurd hk.symm hne
      · exact hx
    · rw [show Store.eraseKey ((k', v') :: tl) k = (k', v') :: Store.eraseKey tl k from by
        simp [Store.eraseKey, hk]]
      rcases List.mem_cons.mp hx with rfl | hx
      · exact List.mem_cons_self _ _
      · exact List.mem_cons_of_mem _ (ih hx)

theorem wf_write {s : Session} (k v : Bytes) (h : WF s) : WF (s.write k v) := by
  obtain ⟨⟨h1, h2, h3⟩, hs⟩ := h
  obtain ⟨hupd, hdel, hcache, _⟩ := write_fields s k v
  refine ⟨⟨?_, ?_, ?_⟩, ?_⟩
  · intro x hx
    rw [hupd] at hx
    rw [hdel]
    rcases mem_setInsert.mp hx with rfl | hx
    · exact not_mem_setErase_self x _
    · intro hmem
      exact h1 x hx (mem_setErase.mp hmem).1
  · intro x hx
    rw [hupd] at hx
    rw [hcache]
    rcases mem_setInsert.mp hx with rfl | hx
    · exact mem_keysOf_write.mpr (Or.inl rfl)
    · exact mem_keysOf_write.mpr (Or.inr (h2 x hx))
  · intro x hx
    rw [hdel] at hx
    rw [hcache]
    obtain ⟨hx1, hx2⟩ := mem_setErase.mp hx
    intro hmem
    rcases mem_keysOf_write.mp hmem with rfl | hmem
    · exact hx2 rfl
    · exact h3 x hx1 hmem
  · rw [show (s.write k v).m_cache = Store.write s.m_cache k v from hcache]
    exact sorted_write k v hs

theorem wf_erase {s : Session} (k : Bytes) (h : WF s) : WF (s.erase k) := by
  obtain ⟨⟨h1, h2, h3⟩, hs⟩ := h
  obtain ⟨hdel, hupd, hcache, _⟩ := erase_fields s k
  refine ⟨⟨?_, ?_, ?_⟩, ?_⟩
  · intro x hx
    rw [hupd] at hx
    rw [hdel]
    obtain ⟨hx1, hx2⟩ := mem_setErase.mp hx
    intro hmem
    rcases mem_setInsert.mp hmem with rfl | hmem
    · exact hx2 rfl
    · exact h1 x hx1 hmem
  · intro x hx
    rw [hupd] at hx
    rw [hcache]
    obtain ⟨hx1, hx2⟩ := mem_setErase.mp hx
    exact mem_keysOf_eraseKey_of_ne (h2 x hx1) hx2
  · intro x hx
    rw [hdel] at hx
    rw [hcache]
    rcases mem_setInsert.mp hx with rfl | hx
    · exact not_mem_keysOf_eraseKey_self x hs
    · intro hmem
      exact h3 x hx (mem_keysOf_eraseKey hmem)
  · rw [show (s.erase k).m_cache = Store.eraseKey s.m_cache k from hcache]
    exact sorted_eraseKey k hs

theorem wf_read {s : Session} (k : Bytes) (h : WF s) : WF (s.read k).2 := by
  unfold Session.read
  by_cases h1 : k ∈ s.m_deleted_keys
  · rw [if_pos h1]
    exact h
  · rw [if_neg h1]
    rcases hc : Store.read s.m_cache k with _ | v
    · rcases hp : s.m_parent with _ | p
      · dsimp only
        exact h
      · dsimp only
        rcases hr : Store.read p k with _ | v
        · dsimp only
          exact h
        · dsimp only
          refine wf_of_sameCore (sameCore_update_iterator_cache_ _ _ _) ?_
          obtain ⟨⟨i1, i2, i3⟩, hs⟩ := h
          refine ⟨⟨i1, ?_, ?_⟩, sorted_write k v hs⟩
          · intro x hx
            exact mem_keysOf_write.mpr (Or.inr (i2 x hx))
          · intro x hx
            intro hmem
            rcases mem_keysOf_write.mp hmem with rfl | hmem
            · exact h1 hx
            · exact i3 x hx hmem
    · dsimp only
      exact h

theorem wf_contains {s : Session} (k : Bytes) (h : WF s) : WF (s.contains k).2 := by
  unfold Session.contains
  by_cases h1 : k ∈ s.m_deleted_keys
  · rw [if_pos h1]
    exact h
  · rw [if_neg h1]
    by_cases h2 : (Store.read s.m_cache k).isSome
    · rw [if_pos h2]
      exact h
    · rw [if_neg h2]
      rcases hp : s.m_parent with _ | p
      · exact h
      · dsimp only
        split
        · exact wf_of_sameCore (sameCore_update_iterator_cache_ _ _ _) h
        · exact h

theorem wf_clear (s : Session) : WF s.clear := by
  refine ⟨⟨?_, ?_, ?_⟩, ?_⟩ <;> simp [Session.clear, SortedStore, SortedKeys, keysOf]

theorem wf_attach {s : Session} (p : Store) (h : WF s) : WF (s.attach p) := by
  obtain ⟨⟨h1, h2, h3⟩, hs⟩ := h
  unfold Session.attach Session.prime_cache_
  rw [show ({ s with m_parent := some p } : Session).m_parent = some p from rfl]
  have hcore : WF
      { s with
        m_parent := some p
        m_iterator_cache := ([] : ICache)
        m_cache := s.m_cache.filter (fun kv => decide (kv.1 ∈ s.m_updated_keys)) } := by
    refine ⟨⟨h1, ?_, ?_⟩, sorted_filter _ hs⟩
    · intro x hx
      exact mem_keysOf_filter.mpr ⟨h2 x hx, hx⟩
    · intro x hx hmem
      exact h3 x hx (mem_keysOf_filter.mp hmem).1
  exact wf_of_sameCore (sameCore_icache _ _) hcore

theorem wf_detach {s : Session} (h : WF s) : WF s.detach := h

theorem wf_undo (s : Session) : WF s.undo := wf_clear _

theorem wf_commit {s : Session} (h : WF s) : WF s.commit := by
  unfold Session.commit
  rcases hp : s.m_parent with _ | p
  · exact h
  · dsimp only
    split
    · exact h
    · exact wf_clear _

/-- C3: every public operation (`read`, `write`, `erase`, `contains`,
`clear`, `attach`, `detach`, `commit`, `undo`) preserves the three
invariants: `updated_keys ∩ deleted_keys = ∅`, every updated key is present
in `write_cache`, every deleted key is absent from `write_cache`
(`is_deleted` is pure and returns no session, so there is nothing to show
for it).  The hypotheses are the same invariants plus the write cache's map
property before the call. -/
theorem claim_C3_invariants (s : Session) (k v : Bytes) (p : Store) (h : WF s) :
    WF (s.write k v) ∧ WF (s.erase k) ∧ WF (s.read k).2 ∧ WF (s.contains k).2 ∧
    WF s.clear ∧ WF (s.attach p) ∧ WF s.detach ∧ WF s.commit ∧ WF s.undo :=
  ⟨wf_write k v h, wf_erase k h, wf_read k h, wf_contains k h, wf_clear s,
   wf_attach p h, wf_detach h, wf_commit h, wf_undo s⟩

/-- Witness for C3 at a concrete well-formed session. -/
theorem claim_C3_invariants_witness :
    WF c2session ∧
    (WF (c2session.write [5] [1]) ∧ WF (c2session.erase [5]) ∧
     WF (c2session.read [5]).2 ∧ WF (c2session.contains [5]).2 ∧
     WF c2session.clear ∧ WF (c2session.attach c2leaf) ∧ WF c2session.detach ∧
     WF c2session.commit ∧ WF c2session.undo) := by
  have hwf : WF c2session := by decide
  exact ⟨hwf, claim_C3_invariants c2session [5] [1] c2leaf hwf⟩

/-- C1: for an attached session with a non-empty buffered write set,
`commit` writes through to the immediate parent: all keys of
`deleted_keys` are erased from the parent first, then every
`(k, write_cache[k])` pair for `k ∈ updated_keys` is written (the committed
parent is literally `write_to` applied after `eraseKeys`, so every erase
precedes every write); afterwards `updated_keys`, `deleted_keys` and
`write_cache` are empty and each key of the new parent reads back the
session's local write, honors the local erase, or keeps the old parent
value.  A detached session, or one with both key sets empty, commits as a
no-op. -/
theorem claim_C1_commit (s : Session) (p : Store)
    (hpar : SortedStore p)
    (hup : ∀ k ∈ s.m_updated_keys, k ∈ keysOf s.m_cache) :
    (s.m_parent = none → s.commit = s) ∧
    (s.m_updated_keys = [] → s.m_deleted_keys = [] → s.commit = s) ∧
    (s.m_parent = some p → ¬ (s.m_updated_keys = [] ∧ s.m_deleted_keys = []) →
      s.commit.m_parent =
        some (Store.write_to s.m_cache (Store.eraseKeys p s.m_deleted_keys)
          s.m_updated_keys) ∧
      s.commit.m_updated_keys = [] ∧ s.commit.m_deleted_keys = [] ∧
      s.commit.m_cache = [] ∧ s.commit.m_iterator_cache = [] ∧
      (∀ k, Store.read
          (Store.write_to s.m_cache (Store.eraseKeys p s.m_deleted_keys) s.m_updated_keys) k =
        if k ∈ s.m_updated_keys then Store.read s.m_cache k
        else if k ∈ s.m_deleted_keys then none
        else Store.read p k)) := by
  refine ⟨?_, ?_, ?_⟩
  · intro h
    unfold Session.commit
    rw [h]
  · intro hu hd
    unfold Session.commit
    rcases hq : s.m_parent with _ | q
    · rfl
    · dsimp only
      rw [if_pos ⟨hu, hd⟩]
  · intro hp hne
    have hcommit : s.commit =
        Session.clear { s with m_parent := (some
          (Store.write_to s.m_cache (Store.eraseKeys p s.m_deleted_keys)
            s.m_updated_keys)) } := by
      unfold Session.commit
      rw [hp]
      dsimp only
      rw [if_neg hne]
    rw [hcommit]
    refine ⟨rfl, rfl, rfl, rfl, rfl, ?_⟩
    intro k
    rw [read_write_to]
    by_cases hk : k ∈ s.m_updated_keys
    · rw [if_pos hk,
        if_pos ⟨hk, isSome_read_of_mem (hup k hk)⟩]
    · rw [if_neg hk,
        if_neg (by rintro ⟨h1, _⟩; exact hk h1),
        read_eraseKeys _ _ hpar]

/-- Witness for C1 on the spec's scenario S2: leaf `{[0] ↦ [1]}`, session
writes `([0],[9])`, `([2],[3])`, erases `[0]`, re-writes `([0],[7])`; the
commit produces the parent `{[0] ↦ [7], [2] ↦ [3]}` and an empty session. -/
theorem claim_C1_commit_witness :
    (s2session.m_parent = some s2leaf ∧
      ¬ (s2session.m_updated_keys = [] ∧ s2session.m_deleted_keys = []) ∧
      s2session.commit.m_parent = some [([0], [7]), ([2], [3])] ∧
      s2session.commit.m_updated_keys = [] ∧ s2session.commit.m_deleted_keys = [] ∧
      s2session.commit.m_cache = []) := by
  have h := claim_C1_commit s2session s2leaf (by decide) (by decide)
  have h3 := h.2.2 (by decide) (by decide)
  refine ⟨by decide, by decide, ?_, h3.2.1, h3.2.2.1, h3.2.2.2.1⟩
  rw [h3.1]
  decide

/-! ## C4 (amended): the successor side of `bounds_` -/

theorem is_deleted_eq_mem (s : Session) (x : Bytes) :
    s.is_deleted x = decide (x ∈ s.m_deleted_keys) := by
  unfold Session.is_deleted
  by_cases h1 : x ∈ s.m_deleted_keys
  · simp [h1]
  · by_cases h2 : x ∈ s.m_updated_keys
    · simp [h1, h2]
    · rcases s.m_parent <;> simp [h1, h2]

theorem not_mem_deleted_of_is_deleted_false {s : Session} {x : Bytes}
    (h : s.is_deleted x = false) : x ∉ s.m_deleted_keys := by
  rw [is_deleted_eq_mem] at h
  simpa using h

theorem ffnGo_eq_find? (s : Session) (beginning pending : Bytes)
    (rest : List (Bytes × Bytes))
    (hgt : ∀ k ∈ rest.map Prod.fst, bytesLt beginning k = true) :
    ffnGo s beginning pending rest .next =
      (pending :: rest.map Prod.fst).find? (fun k => ! s.is_deleted k) := by
  induction rest generalizing pending with
  | nil =>
    unfold ffnGo
    by_cases h : s.is_deleted pending
    · simp [h, List.find?]
    · simp [h, List.find?]
  | cons hd rs ih =>
    obtain ⟨k, v⟩ := hd
    unfold ffnGo
    by_cases h : s.is_deleted pending
    · have hk : bytesLt beginning k = true := hgt k (by simp)
      rw [if_neg (by simp [h])]
      dsimp only
      rw [if_pos hk]
      rw [ih k (fun y hy => hgt y (by simp [hy]))]
      simp [List.find?, h]
    · rw [if_pos (by simp [h])]
      simp [List.find?, h]

theorem findFirstNot_eq_find? (s : Session) (entries : List (Bytes × Bytes))
    (hs : SortedKeys (entries.map Prod.fst)) :
    findFirstNot s entries .next =
      (entries.map Prod.fst).find? (fun k => ! s.is_deleted k) := by
  cases entries with
  | nil => rfl
  | cons hd rest =>
    obtain ⟨k, v⟩ := hd
    unfold findFirstNot
    have hgt : ∀ y ∈ rest.map Prod.fst, bytesLt k y = true := by
      unfold SortedKeys at hs
      exact (List.pairwise_cons.mp hs).1
    show ffnGo s k k rest .next = _
    rw [ffnGo_eq_find? s k k rest hgt]
    rfl

theorem keysOf_drop (st : Store) (n : Nat) :
    keysOf (st.drop n) = (keysOf st).drop n := by
  unfold keysOf
  exact List.map_drop Prod.fst st n

theorem keysOf_drop_ubIdx {st : Store} (key : Bytes) (h : SortedStore st) :
    keysOf (st.drop (ubIdx st key)) = (keysOf st).filter (fun x => bytesLt key x) := by
  induction st with
  | nil => rfl
  | cons hd tl ih =>
    obtain ⟨k', v'⟩ := hd
    unfold SortedStore SortedKeys at h
    rw [show keysOf ((k', v') :: tl) = k' :: keysOf tl from rfl] at h
    obtain ⟨hk', htl⟩ := List.pairwise_cons.mp h
    by_cases h1 : bytesLt key k'
    · rw [show ubIdx ((k', v') :: tl) key = 0 from by simp [ubIdx, h1]]
      rw [List.drop_zero]
      rw [show keysOf ((k', v') :: tl) = k' :: keysOf tl from rfl]
      rw [List.filter_cons_of_pos (by simpa using h1)]
      congr 1
      refine (List.filter_eq_self.mpr ?_).symm
      intro y hy
      simpa using bytesLt_trans h1 (hk' y hy)
    · rw [show ubIdx ((k', v') :: tl) key = 1 + ubIdx tl key from by simp [ubIdx, h1]]
      rw [show (1 + ubIdx tl key) = (ubIdx tl key) + 1 from Nat.add_comm _ _]
      rw [show (((k', v') :: tl).drop (ubIdx tl key + 1)) = tl.drop (ubIdx tl key) from rfl]
      rw [show keysOf ((k', v') :: tl) = k' :: keysOf tl from rfl]
      rw [List.filter_cons_of_neg (by simpa using h1)]
      exact ih htl

theorem find?_sorted_least {l : List Bytes} (q : Bytes → Bool) (h : SortedKeys l)
    {u : Bytes} (hf : l.find? q = some u) :
    ∀ y ∈ l, q y = true → bytesLt y u = false := by
  induction l with
  | nil => cases hf
  | cons a tl ih =>
    unfold SortedKeys at h
    obtain ⟨ha, htl⟩ := List.pairwise_cons.mp h
    intro y hy hq
    rw [List.find?_cons] at hf
    cases hqa : q a with
    | true =>
      rw [hqa] at hf
      have hu : a = u := by injection hf
      subst hu
      rcases List.mem_cons.mp hy with rfl | hy
      · exact bytesLt_irrefl y
      · exact bytesLt_asymm (ha y hy)
    | false =>
      rw [hqa] at hf
      rcases List.mem_cons.mp hy with rfl | hy
      · exact absurd hq (by simp [hqa])
      · exact ih htl hf y hy hq

/-- What the forward scan of one source computes for the `upper_bound`
predicate: the first key of the source strictly above `key` that is not
`is_deleted`, and nothing below it qualifies. -/
theorem sourceUb_spec (s : Session) (st : Store) (key : Bytes) (h : SortedStore st) :
    match findFirstNot s (st.drop (ubIdx st key)) .next with
    | some u => u ∈ keysOf st ∧ s.is_deleted u = false ∧ bytesLt key u = true ∧
        ∀ x ∈ keysOf st, s.is_deleted x = false → bytesLt key x = true → bytesLt x u = false
    | none => ∀ x ∈ keysOf st, s.is_deleted x = false → bytesLt key x = false := by
  have hdropSorted : SortedKeys ((st.drop (ubIdx st key)).map Prod.fst) := by
    rw [show (st.drop (ubIdx st key)).map Prod.fst = keysOf (st.drop (ubIdx st key)) from rfl]
    rw [keysOf_drop]
    exact List.Pairwise.sublist (List.drop_sublist _ _) h
  rw [show findFirstNot s (st.drop (ubIdx st key)) .next =
      ((st.drop (ubIdx st key)).map Prod.fst).find? (fun k => ! s.is_deleted k) from
    findFirstNot_eq_find? s _ hdropSorted]
  rw [show (st.drop (ubIdx st key)).map Prod.fst = keysOf (st.drop (ubIdx st key)) from rfl]
  rw [keysOf_drop_ubIdx key h]
  have hfiltSorted : SortedKeys ((keysOf st).filter (fun x => bytesLt key x)) :=
    List.Pairwise.filter _ h
  rcases hf : ((keysOf st).filter (fun x => bytesLt key x)).find?
      (fun k => ! s.is_deleted k) with _ | u
  · intro x hx hdead
    by_cases hlt : bytesLt key x
    · have hxf : x ∈ (keysOf st).filter (fun y => bytesLt key y) :=
        List.mem_filter.mpr ⟨hx, hlt⟩
      have := List.find?_eq_none.mp hf x hxf
      rw [hdead] at this
      simp at this
    · exact bool_false_of_not_true hlt
  · have hmem := List.mem_of_find?_eq_some hf
    obtain ⟨hu1, hu2⟩ := List.mem_filter.mp hmem
    have hq := List.find?_some hf
    have hdead : s.is_deleted u = false := by
      cases hv : s.is_deleted u
      · rfl
      · rw [hv] at hq
        cases hq
    refine ⟨hu1, hdead, hu2, ?_⟩
    intro x hx hxdead hxlt
    exact find?_sorted_least _ hfiltSorted hf x
      (List.mem_filter.mpr ⟨hx, hxlt⟩) (by simp [hxdead])

theorem is_deleted_sameCore {a b : Session} (h : SameCore a b) (x : Bytes) :
    a.is_deleted x = b.is_deleted x := by
  rw [is_deleted_eq_mem, is_deleted_eq_mem, h.2.2.2]

theorem ffnGo_sameCore {a b : Session} (h : SameCore a b) (beginning pending : Bytes)
    (rest : List (Bytes × Bytes)) (mv : MoveKind) :
    ffnGo a beginning pending rest mv = ffnGo b beginning pending rest mv := by
  induction rest generalizing pending with
  | nil =>
    unfold ffnGo
    rw [is_deleted_sameCore h]
  | cons hd rs ih =>
    obtain ⟨k, v⟩ := hd
    unfold ffnGo
    rw [is_deleted_sameCore h]
    split
    · rfl
    · cases mv with
      | toEnd => rfl
      | next =>
        dsimp only
        split
        · exact ih k
        · rfl

theorem findFirstNot_sameCore {a b : Session} (h : SameCore a b)
    (entries : List (Bytes × Bytes)) (mv : MoveKind) :
    findFirstNot a entries mv = findFirstNot b entries mv := by
  cases entries with
  | nil => rfl
  | cons hd rest =>
    obtain ⟨k, v⟩ := hd
    show ffnGo a k k rest mv = ffnGo b k k rest mv
    exact ffnGo_sameCore h k k rest mv

theorem chosenKey_sameCore {a b : Session} (h : SameCore a b) (predIdx : Store → Nat)
    (cmp : SB → SB → Bool) (mv : MoveKind) :
    chosenKey a predIdx cmp mv = chosenKey b predIdx cmp mv := by
  unfold chosenKey
  rw [h.1, h.2.1]
  simp only [findFirstNot_sameCore h]

theorem mem_icacheEmplace {ic : ICache} {k : Bytes} {kv : Bytes × IterState}
    (h : kv ∈ icacheEmplace ic k) : kv ∈ ic ∨ kv = (k, ({} : IterState)) := by
  induction ic with
  | nil =>
    right
    simpa [icacheEmplace] using h
  | cons hd rest ih =>
    obtain ⟨k', st⟩ := hd
    by_cases h1 : bytesLt k k'
    · rw [show icacheEmplace ((k', st) :: rest) k = (k, {}) :: (k', st) :: rest from by
        simp [icacheEmplace, h1]] at h
      rcases List.mem_cons.mp h with rfl | h
      · exact Or.inr rfl
      · exact Or.inl h
    · by_cases h2 : k = k'
      · rw [show icacheEmplace ((k', st) :: rest) k = (k', st) :: rest from by
          simp [icacheEmplace, h1, h2, bytesLt_irrefl]] at h
        exact Or.inl h
      · rw [show icacheEmplace ((k', st) :: rest) k = (k', st) :: icacheEmplace rest k from by
          simp [icacheEmplace, h1, h2]] at h
        rcases List.mem_cons.mp h with rfl | h
        · exact Or.inl (List.mem_cons_self _ _)
        · rcases ih h with h | h
          · exact Or.inl (List.mem_cons_of_mem _ h)
          · exact Or.inr h

theorem icacheFind_emplace_self (ic : ICache) (k : Bytes) :
    ∃ st, icacheFind (icacheEmplace ic k) k = some st ∧
      (st = ({} : IterState) ∨ (k, st) ∈ ic) := by
  induction ic with
  | nil => exact ⟨{}, by simp [icacheEmplace, icacheFind], Or.inl rfl⟩
  | cons hd rest ih =>
    obtain ⟨k', st'⟩ := hd
    by_cases h1 : bytesLt k k'
    · refine ⟨{}, ?_, Or.inl rfl⟩
      rw [show icacheEmplace ((k', st') :: rest) k = (k, {}) :: (k', st') :: rest from by
        simp [icacheEmplace, h1]]
      simp [icacheFind]
    · by_cases h2 : k = k'
      · refine ⟨st', ?_, Or.inr (by rw [h2]; exact List.mem_cons_self _ _)⟩
        rw [show icacheEmplace ((k', st') :: rest) k = (k', st') :: rest from by
          simp [icacheEmplace, h1, h2, bytesLt_irrefl]]
        simp [icacheFind, h2]
      · obtain ⟨st, hfind, hmem⟩ := ih
        refine ⟨st, ?_, ?_⟩
        · rw [show icacheEmplace ((k', st') :: rest) k = (k', st') :: icacheEmplace rest k
            from by simp [icacheEmplace, h1, h2]]
          simp only [icacheFind, if_neg h2]
          exact hfind
        · rcases hmem with h | h
          · exact Or.inl h
          · exact Or.inr (List.mem_cons_of_mem _ h)

theorem flagsOk_emplaceKey {s : Session} (h : FlagsOk s) (k : Bytes) :
    FlagsOk (emplaceKey k s) := by
  intro kv hm hd
  rcases mem_icacheEmplace hm with hm | rfl
  · exact h kv hm hd
  · cases hd

theorem makeIterPos_fst (ck : Bytes) (s' : Session) : (makeIterPos ck s').1 = s' := by
  unfold makeIterPos
  split
  · split
    · rfl
    · rfl
  · rfl

theorem updatePrimeOnly_prime_eq (s : Session) (ck : Bytes) :
    updatePrimeOnly s ck { prime_only := true, recalculate := true,
                           mark_deleted := false, overwrite := false } = emplaceKey ck s := rfl

theorem flagsOk_makeIterPrime {s : Session} (h : FlagsOk s) (predIdx : Store → Nat)
    (cmp : SB → SB → Bool) (mv : MoveKind) :
    FlagsOk (makeIterAux updatePrimeOnly true s predIdx cmp mv).1 := by
  unfold makeIterAux makeIterFinish
  rcases chosenKey s predIdx cmp mv with _ | ck
  · exact h
  · dsimp only
    rw [updatePrimeOnly_prime_eq, makeIterPos_fst]
    exact flagsOk_emplaceKey h ck

theorem makeIterAux_prime_pos (s : Session) (predIdx : Store → Nat)
    (cmp : SB → SB → Bool) (mv : MoveKind) (hflags : FlagsOk s)
    (hnd : ∀ ck, chosenKey s predIdx cmp mv = some ck → ck ∉ s.m_deleted_keys) :
    (makeIterAux updatePrimeOnly true s predIdx cmp mv).2 =
      chosenKey s predIdx cmp mv := by
  unfold makeIterAux makeIterFinish
  rcases hck : chosenKey s predIdx cmp mv with _ | ck
  · rfl
  · dsimp only
    rw [updatePrimeOnly_prime_eq]
    unfold makeIterPos
    obtain ⟨st, hfind, hmem⟩ := icacheFind_emplace_self s.m_iterator_cache ck
    rw [show (emplaceKey ck s).m_iterator_cache = icacheEmplace s.m_iterator_cache ck
      from rfl]
    rw [hfind]
    cases hdel : st.deleted with
    | false => simp [hdel]
    | true =>
      rcases hmem with rfl | hmem
      · cases hdel
      · exact absurd (hflags (ck, st) hmem hdel) (hnd ck hck)

/-- The candidate key the upper-bound scan of `bounds_` settles on is the
least non-tombstoned key above `key` across the parent and the write
cache. -/
theorem chosenKey_ub_spec (s : Session) (p : Store) (key : Bytes)
    (hp : s.m_parent = some p) (hpar : SortedStore p) (hcache : SortedStore s.m_cache) :
    match chosenKey s (fun ds => ubIdx ds key) ltSB .next with
    | some u => (u ∈ keysOf p ∨ u ∈ keysOf s.m_cache) ∧ s.is_deleted u = false ∧
        bytesLt key u = true ∧
        ∀ x, (x ∈ keysOf p ∨ x ∈ keysOf s.m_cache) → s.is_deleted x = false →
          bytesLt key x = true → bytesLt x u = false
    | none => ∀ x, (x ∈ keysOf p ∨ x ∈ keysOf s.m_cache) → s.is_deleted x = false →
        bytesLt key x = false := by
  have hP := sourceUb_spec s p key hpar
  have hC := sourceUb_spec s s.m_cache key hcache
  have hchosen : chosenKey s (fun ds => ubIdx ds key) ltSB .next =
      (if findFirstNot s (p.drop (ubIdx p key)) .next = none ∨
          ltSB (findFirstNot s (s.m_cache.drop (ubIdx s.m_cache key)) .next)
            (findFirstNot s (p.drop (ubIdx p key)) .next)
        then findFirstNot s (s.m_cache.drop (ubIdx s.m_cache key)) .next
        else findFirstNot s (p.drop (ubIdx p key)) .next) := by
    unfold chosenKey
    rw [hp]
  rw [hchosen]
  rcases hPc : findFirstNot s (p.drop (ubIdx p key)) .next with _ | c
  · rw [hPc] at hP
    rcases hCc : findFirstNot s (s.m_cache.drop (ubIdx s.m_cache key)) .next with _ | u
    · rw [hCc] at hC
      rw [if_pos (Or.inl rfl)]
      intro x hx hxdead
      rcases hx with hx | hx
      · exact hP x hx hxdead
      · exact hC x hx hxdead
    · rw [hCc] at hC
      rw [if_pos (Or.inl rfl)]
      obtain ⟨hu1, hu2, hu3, hu4⟩ := hC
      refine ⟨Or.inr hu1, hu2, hu3, ?_⟩
      intro x hx hxdead hxlt
      rcases hx with hx | hx
      · have := hP x hx hxdead
        rw [hxlt] at this
        cases this
      · exact hu4 x hx hxdead hxlt
  · rw [hPc] at hP
    obtain ⟨hc1, hc2, hc3, hc4⟩ := hP
    rcases hCc : findFirstNot s (s.m_cache.drop (ubIdx s.m_cache key)) .next with _ | u
    · rw [hCc] at hC
      rw [if_neg (by simp [ltSB])]
      refine ⟨Or.inl hc1, hc2, hc3, ?_⟩
      intro x hx hxdead hxlt
      rcases hx with hx | hx
      · exact hc4 x hx hxdead hxlt
      · have := hC x hx hxdead
        rw [hxlt] at this
        cases this
    · rw [hCc] at hC
      obtain ⟨hu1, hu2, hu3, hu4⟩ := hC
      by_cases hcmp : bytesLt u c
      · rw [if_pos (Or.inr (by simpa [ltSB] using hcmp))]
        refine ⟨Or.inr hu1, hu2, hu3, ?_⟩
        intro x hx hxdead hxlt
        rcases hx with hx | hx
        · cases hxu : bytesLt x u with
          | false => rfl
          | true =>
            have hxc : bytesLt x c = true := bytesLt_trans hxu hcmp
            have := hc4 x hx hxdead hxlt
            rw [hxc] at this
            cases this
        · exact hu4 x hx hxdead hxlt
      · rw [if_neg (by simp [ltSB]; exact bool_false_of_not_true hcmp)]
        refine ⟨Or.inl hc1, hc2, hc3, ?_⟩
        intro x hx hxdead hxlt
        rcases hx with hx | hx
        · exact hc4 x hx hxdead hxlt
        · have hxu : bytesLt x u = false := hu4 x hx hxdead hxlt
          by_cases hcu : bytesLt c u
          · cases hxc : bytesLt x c with
            | false => rfl
            | true =>
              have := bytesLt_trans hxc hcu
              rw [hxu] at this
              cases this
          · have : c = u := bytesLt_total (bool_false_of_not_true hcu)
              (bool_false_of_not_true hcmp)
            rw [this]
            exact hxu

/-- The value `bounds_` returns on its upper side is exactly the candidate
the upper-bound scan chose (the prime-only iterators in between only
emplace default entries and cannot flip the chosen entry's deleted flag on
a well-flagged session). -/
theorem bounds_upper_eq (s : Session) (p : Store) (key : Bytes)
    (hp : s.m_parent = some p) (hpar : SortedStore p) (hcache : SortedStore s.m_cache)
    (hflags : FlagsOk s) :
    (s.bounds_ key).2.2 = chosenKey s (fun ds => ubIdx ds key) ltSB .next := by
  unfold Session.bounds_
  dsimp only
  have hsc : SameCore
      (makeIterAux updatePrimeOnly true s (fun ds => lowerPredIdx ds key) ltSB .next).1 s :=
    sameCore_makeIterAux _ sameCore_updatePrimeOnly _ _ _ _ _
  have hflags1 : FlagsOk
      (makeIterAux updatePrimeOnly true s (fun ds => lowerPredIdx ds key) ltSB .next).1 :=
    flagsOk_makeIterPrime hflags _ _ _
  have hckeq : chosenKey
        (makeIterAux updatePrimeOnly true s (fun ds => lowerPredIdx ds key) ltSB .next).1
        (fun ds => ubIdx ds key) ltSB .next =
      chosenKey s (fun ds => ubIdx ds key) ltSB .next :=
    chosenKey_sameCore hsc _ _ _
  have hnd : ∀ ck, chosenKey
        (makeIterAux updatePrimeOnly true s (fun ds => lowerPredIdx ds key) ltSB .next).1
        (fun ds => ubIdx ds key) ltSB .next = some ck →
      ck ∉ (makeIterAux updatePrimeOnly true s (fun ds => lowerPredIdx ds key) ltSB
        .next).1.m_deleted_keys := by
    intro ck hckk
    rw [hckeq] at hckk
    have hspec := chosenKey_ub_spec s p key hp hpar hcache
    rw [hckk] at hspec
    rw [hsc.2.2.2]
    exact not_mem_deleted_of_is_deleted_false hspec.2.1
  rw [makeIterAux_prime_pos _ _ _ _ hflags1 hnd, hckeq]

/-- C4 (amended): the successor side of the claim holds — for every
attached well-formed session (sorted parent and write cache, honest
`deleted` flags in the iterator cache), `bounds(k)`'s second component is
the smallest key strictly greater than `k` over the logical view excluding
keys tombstoned at this layer, or the invalid sentinel when no such key
exists.  The predecessor side fails as claimed
(`claim_C4_counterexample`): it can return `invalid` although a strictly
smaller view key exists. -/
theorem claim_C4_amended (s : Session) (p : Store) (key : Bytes)
    (hp : s.m_parent = some p) (hpar : SortedStore p) (hcache : SortedStore s.m_cache)
    (hflags : FlagsOk s) :
    match (s.bounds_ key).2.2 with
    | some u => InLogicalView s u ∧ bytesLt key u = true ∧
        ∀ x, InLogicalView s x → bytesLt key x = true → bytesLt x u = false
    | none => ∀ x, InLogicalView s x → bytesLt key x = false := by
  rw [bounds_upper_eq s p key hp hpar hcache hflags]
  have hspec := chosenKey_ub_spec s p key hp hpar hcache
  have hview : ∀ x, InLogicalView s x ↔
      ((x ∈ keysOf p ∨ x ∈ keysOf s.m_cache) ∧ x ∉ s.m_deleted_keys) := by
    intro x
    unfold InLogicalView
    rw [hp]
    rfl
  have hdel : ∀ x, x ∉ s.m_deleted_keys → s.is_deleted x = false := by
    intro x hx
    rw [is_deleted_eq_mem]
    simpa using hx
  rcases hck : chosenKey s (fun ds => ubIdx ds key) ltSB .next with _ | u
  · rw [hck] at hspec
    intro x hx
    obtain ⟨hx1, hx2⟩ := (hview x).mp hx
    exact hspec x hx1 (hdel x hx2)
  · rw [hck] at hspec
    obtain ⟨h1, h2, h3, h4⟩ := hspec
    refine ⟨(hview u).mpr ⟨h1, not_mem_deleted_of_is_deleted_false h2⟩, h3, ?_⟩
    intro x hx hxlt
    obtain ⟨hx1, hx2⟩ := (hview x).mp hx
    exact h4 x hx1 (hdel x hx2) hxlt

/-- Witness for the amended C4: on `c4bsession`, `bounds_([0])`'s upper
side is `[2]`, which the theorem certifies as the least view key above
`[0]`. -/
theorem claim_C4_amended_witness :
    (c4bsession.bounds_ [0]).2.2 = some [2] ∧
    InLogicalView c4bsession [2] ∧ bytesLt [0] [2] = true := by
  have h := claim_C4_amended c4bsession c4bleaf [0] rfl (by decide) (by decide) (by decide)
  have he : (c4bsession.bounds_ [0]).2.2 = some [2] := by decide
  rw [he] at h
  exact ⟨he, h.1, h.2.1⟩

/-- Witness for C7 on the concrete leaf `c2leaf`: attaching a fresh session
installs the parent and primes the iterator cache with exactly the leaf's
minimum key `[0]` and maximum key `[3]`. -/
theorem claim_C7_attach_detach_witness :
    (make_session.attach c2leaf).m_parent = some c2leaf ∧
    (make_session.attach c2leaf).m_iterator_cache = [([0], {}), ([3], {})] := by
  have h := claim_C7_attach_detach make_session c2leaf (by decide)
  refine ⟨h.1, ?_⟩
  have h8 := (h.2.2.2.2.2.2.2 ([0], [10]) ([3], [12]) (by decide) (by decide)).1
  rw [h8]
  decide

/-- Witness for C9 on the spec's scenario S1: a fresh session over the leaf
`{[0] ↦ [1]}` reads `[0]` through to the parent, returns `[1]`, caches it
locally and leaves `updated_keys` empty. -/
theorem claim_C9_read_through_witness :
    ((make_session.attach [([0], [1])]).read [0]).1 = some [1] ∧
    Store.read ((make_session.attach [([0], [1])]).read [0]).2.m_cache [0] = some [1] ∧
    ((make_session.attach [([0], [1])]).read [0]).2.m_updated_keys = [] := by
  have h := claim_C9_read_through (make_session.attach [([0], [1])]) [0] [1] [([0], [1])]
    rfl (by decide) (by decide) (by decide)
  exact ⟨h.1, h.2.1, h.2.2.2.1.trans (by decide)⟩

end SessionModel
